import Mathlib

/-!
Verification of the s2delaunay / s2voronoi core: the construction pipeline
turning a convex-hull triangle list on the unit sphere into an oriented
Delaunay triangulation with CSR (offset-indexed) vertex-to-triangle
incidence, and its dual Voronoi diagram.

The convex-hull routine is an external collaborator (excluded from the
repository); its flat output of vertex-index triples is modelled as an
explicit `hull : List ℕ` parameter.  Floating-point coordinates are
idealised as exact rationals for all arithmetic the code performs
(add, sub, mul, cross, dot, sign tests); the single square root used by
vector normalisation is modelled over the reals (`Vec3R`).

Go runtime bounds panics on the counting pass are modelled as a
distinguished `Err.panicked` result, so a successful construction implies
every hull index is in range, exactly as in Go (where an out-of-range
index would abort construction by panicking).
-/

namespace S2D

/-- Three-dimensional vector with rational coordinates (idealised `r3.Vector`). -/
structure Vec3 where
  x : ℚ
  y : ℚ
  z : ℚ
deriving DecidableEq

instance : Inhabited Vec3 := ⟨⟨0, 0, 0⟩⟩

def Vec3.sub (a b : Vec3) : Vec3 := ⟨a.x - b.x, a.y - b.y, a.z - b.z⟩

def Vec3.add (a b : Vec3) : Vec3 := ⟨a.x + b.x, a.y + b.y, a.z + b.z⟩

def Vec3.mul (a : Vec3) (c : ℚ) : Vec3 := ⟨a.x * c, a.y * c, a.z * c⟩

def Vec3.dot (a b : Vec3) : ℚ := a.x * b.x + a.y * b.y + a.z * b.z

/-- Cross product, as in `r3.Vector.Cross`. -/
def Vec3.cross (a b : Vec3) : Vec3 :=
  ⟨a.y * b.z - a.z * b.y, a.z * b.x - a.x * b.z, a.x * b.y - a.y * b.x⟩

/-- Squared Euclidean norm, as in `r3.Vector.Norm2`. -/
def Vec3.norm2 (a : Vec3) : ℚ := a.x * a.x + a.y * a.y + a.z * a.z

/-- Real-valued three-dimensional vector, used only for the normalisation
step (`Normalize`), which involves a square root. -/
structure Vec3R where
  x : ℝ
  y : ℝ
  z : ℝ

def Vec3.toR (a : Vec3) : Vec3R := ⟨(a.x : ℝ), (a.y : ℝ), (a.z : ℝ)⟩

def Vec3R.mul (a : Vec3R) (c : ℝ) : Vec3R := ⟨a.x * c, a.y * c, a.z * c⟩

def Vec3R.norm2 (a : Vec3R) : ℝ := a.x * a.x + a.y * a.y + a.z * a.z

noncomputable def Vec3R.norm (a : Vec3R) : ℝ := Real.sqrt a.norm2

/-- Normalisation to unit length, as in `r3.Vector.Normalize`: the zero
vector is returned unchanged, otherwise the vector is scaled by the
reciprocal of its norm. -/
noncomputable def Vec3R.normalize (a : Vec3R) : Vec3R :=
  if a.norm2 = 0 then ⟨0, 0, 0⟩ else a.mul (1 / Real.sqrt a.norm2)

/-- A triangle: an ordered triple of site indices (`[3]int` in the source;
hull indices are non-negative, so `ℕ`). -/
structure Tri where
  a : ℕ
  b : ℕ
  c : ℕ
deriving DecidableEq

instance : Inhabited Tri := ⟨⟨0, 0, 0⟩⟩

/-- Membership of a site index in a triangle's vertex triple. -/
def Tri.has (t : Tri) (v : ℕ) : Prop := v = t.a ∨ v = t.b ∨ v = t.c

instance (t : Tri) (v : ℕ) : Decidable (t.has v) := by
  unfold Tri.has; infer_instance

/-- `NextVertex`: the vertex cyclically after `vIdx` in the triangle; `none`
models the error return when `vIdx` is not a vertex of the triangle.  The
cases are tried in order `t[0]`, `t[1]`, `t[2]`, like the Go `switch`. -/
def NextVertex (t : Tri) (vIdx : ℕ) : Option ℕ :=
  if vIdx = t.a then some t.b
  else if vIdx = t.b then some t.c
  else if vIdx = t.c then some t.a
  else none

/-- `PrevVertex`: the vertex cyclically before `vIdx` in the triangle; `none`
models the error return when `vIdx` is not a vertex of the triangle. -/
def PrevVertex (t : Tri) (vIdx : ℕ) : Option ℕ :=
  if vIdx = t.a then some t.c
  else if vIdx = t.b then some t.a
  else if vIdx = t.c then some t.b
  else none

/-- Closed error taxonomy for the construction pipeline (the source uses
formatted error values; `panicked` models a Go runtime bounds panic). -/
inductive Err where
  | insufficientInput
  | invalidTolerance
  | inconsistentHullOutput
  | indexOutOfRange
  | panicked
deriving DecidableEq

/-- Configuration for the triangulation builder (`TriangulationOptions`). -/
structure TriangulationOptions where
  Eps : ℚ
deriving DecidableEq

/-- The default epsilon tolerance, `1e-12`. -/
def defaultEps : ℚ := 1 / 1000000000000

/-- `WithEps`: functional option setting the tolerance; rejects a
non-positive epsilon. -/
def WithEps (eps : ℚ) (o : TriangulationOptions) : Except Err TriangulationOptions :=
  if eps ≤ 0 then .error .invalidTolerance else .ok { o with Eps := eps }

/-- Apply the option setters in order, stopping at the first error
(the setter loop at the top of `NewTriangulation`). -/
def applySetters (setters : List (TriangulationOptions → Except Err TriangulationOptions))
    (o : TriangulationOptions) : Except Err TriangulationOptions :=
  match setters with
  | [] => .ok o
  | s :: ss =>
    match s o with
    | .error e => .error e
    | .ok o' => applySetters ss o'

/-- The Delaunay triangulation structure. -/
structure Triangulation where
  Vertices : List Vec3
  Triangles : List Tri
  IncidentTriangleIndices : List ℕ
  IncidentTriangleOffsets : List ℕ
deriving DecidableEq

instance : Inhabited Triangulation := ⟨⟨[], [], [], []⟩⟩

/-- `IncidentTriangles` accessor: the CSR slice
`indices[offsets[vIdx] : offsets[vIdx+1]]` of triangles incident to
`vIdx`; out-of-range `vIdx` is an error.  (The Go accessor also rejects
negative `vIdx`, which `ℕ` rules out.) -/
def Triangulation.IncidentTriangles (t : Triangulation) (vIdx : ℕ) : Except Err (List ℕ) :=
  if vIdx + 1 ≥ t.IncidentTriangleOffsets.length then .error .indexOutOfRange
  else
    .ok ((t.IncidentTriangleIndices.drop (t.IncidentTriangleOffsets.getD vIdx 0)).take
      (t.IncidentTriangleOffsets.getD (vIdx + 1) 0 - t.IncidentTriangleOffsets.getD vIdx 0))

/-- Orientation pass for one triangle (`sortTriangleVerticesCCW`): the
normal of the triangle's plane is tested against the first vertex
direction, and the last two vertices are swapped when the sign is
negative. -/
def sortTriangleVerticesCCW (t : Tri) (v : List Vec3) : Tri :=
  let p0 := v.getD t.a default
  let p1 := v.getD t.b default
  let p2 := v.getD t.c default
  if ((p1.sub p0).cross (p2.sub p0)).dot p0 < 0 then ⟨t.a, t.c, t.b⟩ else t

/-- Counting pass of the CSR construction: one increment of `offsets[idx+1]`
per hull entry.  An out-of-range index makes Go panic; this is modelled
as `Err.panicked`, so success implies every hull index is in range. -/
def countPassGo (off : List ℕ) (hull : List ℕ) : Except Err (List ℕ) :=
  match hull with
  | [] => .ok off
  | idx :: rest =>
    if idx + 1 < off.length then
      countPassGo (off.set (idx + 1) (off.getD (idx + 1) 0 + 1)) rest
    else .error .panicked

/-- In-place prefix sum over the offsets array:
`offsets[i+1] += offsets[i]` for `i = 0 .. numVertices-1`. -/
def prefixPass (numVertices : ℕ) (off : List ℕ) : List ℕ :=
  (List.range numVertices).foldl
    (fun o i => o.set (i + 1) (o.getD (i + 1) 0 + o.getD i 0)) off

/-- One incidence write of the placement pass: `indices[nxt[v]] = i; nxt[v]++`.
State is `(indices, nxt)`. -/
def placeOne (i v : ℕ) (st : List ℕ × List ℕ) : List ℕ × List ℕ :=
  (st.1.set (st.2.getD v 0) i, st.2.set v (st.2.getD v 0 + 1))

/-- Placement-pass body for triangle `i`: reads the raw triple from the hull
output, records the three incidences, and appends the CCW-oriented
triangle.  State is `(triangles, indices, nxt)`. -/
def placeTriangle (vertices : List Vec3) (hull : List ℕ)
    (st : List Tri × List ℕ × List ℕ) (i : ℕ) : List Tri × List ℕ × List ℕ :=
  let a := hull.getD (3 * i) 0
  let b := hull.getD (3 * i + 1) 0
  let c := hull.getD (3 * i + 2) 0
  let s1 := placeOne i a (st.2.1, st.2.2)
  let s2 := placeOne i b s1
  let s3 := placeOne i c s2
  (st.1 ++ [sortTriangleVerticesCCW ⟨a, b, c⟩ vertices], s3.1, s3.2)

/-- The placement pass over all triangles. -/
def placePass (vertices : List Vec3) (hull : List ℕ) (numTriangles : ℕ)
    (indices0 nxt0 : List ℕ) : List Tri × List ℕ × List ℕ :=
  (List.range numTriangles).foldl (placeTriangle vertices hull) ([], indices0, nxt0)

/-- Inner scan of the CCW incidence sort: starting after the current slot,
look for the first later entry whose triangle's `PrevVertex` at the site
equals `nxt`; on success return that entry together with the remaining
entries after the swap (the old current-slot entry `head` takes the
found entry's place).  The outer `none` models a Go panic from a failed
`PrevVertex` call; `some none` means no later entry matched. -/
def scanMatch (v : ℕ) (tris : List Tri) (nxt head : ℕ) :
    List ℕ → Option (Option (ℕ × List ℕ))
  | [] => some none
  | c :: rest =>
    match PrevVertex (tris.getD c default) v with
    | none => none
    | some prv =>
      if prv = nxt then some (some (c, head :: rest))
      else
        match scanMatch v tris nxt head rest with
        | none => none
        | some none => some none
        | some (some (c', rest')) => some (some (c', c :: rest'))

/-- Outer loop of the CCW incidence sort, peeling slots left to right:
`prev` is the entry finalised in the previous slot; at each slot the
scan looks for a later matching entry and swaps it in, otherwise the
slot keeps its current entry.  `none` models a Go panic from a failed
`NextVertex`/`PrevVertex` call.  The first `ℕ` argument is the number of
remaining slots; the scan preserves the slot count, so it equals the
list length at every call and is never exhausted (the recursion is on
this count so that the definition reduces structurally). -/
def sortFanGo (v : ℕ) (tris : List Tri) : ℕ → ℕ → List ℕ → Option (List ℕ)
  | _, _, [] => some []
  | 0, _, _ :: _ => none
  | fuel + 1, prev, head :: rest =>
    match NextVertex (tris.getD prev default) v with
    | none => none
    | some nxt =>
      match scanMatch v tris nxt head rest with
      | none => none
      | some none =>
        match sortFanGo v tris fuel head rest with
        | none => none
        | some r => some (head :: r)
      | some (some (h', rest')) =>
        match sortFanGo v tris fuel h' rest' with
        | none => none
        | some r => some (h' :: r)

/-- `sortIncidentTriangleIndicesCCW`: selection-style reconstruction of the
cyclic CCW fan order of a site's incident-triangle slice. -/
def sortIncidentTriangleIndicesCCW (vIdx : ℕ) (incidentTris : List ℕ) (tris : List Tri) :
    Option (List ℕ) :=
  match incidentTris with
  | [] => some []
  | h :: rest =>
    match sortFanGo vIdx tris rest.length h rest with
    | none => none
    | some r => some (h :: r)

/-- Replace the segment `[start, start + seg.length)` of `l` by `seg`
(the in-place sorting of a CSR slice view). -/
def writeSegment (l : List ℕ) (start : ℕ) (seg : List ℕ) : List ℕ :=
  l.take start ++ seg ++ l.drop (start + seg.length)

/-- One iteration of the final loop of `NewTriangulation`: fetch site `v`'s
incidence slice, CCW-sort it, and write it back. -/
def sortFansStep (t : Triangulation) (v : ℕ) : Except Err Triangulation :=
  match t.IncidentTriangles v with
  | .error e => .error e
  | .ok seg =>
    match sortIncidentTriangleIndicesCCW v seg t.Triangles with
    | none => .error .panicked
    | some seg' =>
      .ok { t with IncidentTriangleIndices :=
        writeSegment t.IncidentTriangleIndices (t.IncidentTriangleOffsets.getD v 0) seg' }

/-- The final loop of `NewTriangulation` over the given site indices. -/
def sortFansGo (t : Triangulation) : List ℕ → Except Err Triangulation
  | [] => .ok t
  | v :: vs =>
    match sortFansStep t v with
    | .error e => .error e
    | .ok t' => sortFansGo t' vs

/-- The body of `NewTriangulation` after input validation: cardinality check
of the hull collaborator's output, CSR construction (counting, prefix
sum, placement with per-triangle orientation), and the CCW incidence
sort of every site's slice. -/
def buildFromHull (vertices : List Vec3) (hull : List ℕ) : Except Err Triangulation :=
  let numVertices := vertices.length
  let numTriangles := 2 * (numVertices - 2)
  if hull.length ≠ numTriangles * 3 then .error .inconsistentHullOutput
  else
    match countPassGo (List.replicate (numVertices + 1) 0) hull with
    | .error e => .error e
    | .ok counted =>
      let offsets := prefixPass numVertices counted
      let nxt0 := offsets.take numVertices
      let st := placePass vertices hull numTriangles
        (List.replicate (numTriangles * 3) 0) nxt0
      sortFansGo ⟨vertices, st.1, st.2.1, offsets⟩ (List.range numVertices)

/-- `NewTriangulation`: apply the option setters (default epsilon `1e-12`),
validate the input size, then build from the hull collaborator's output.
The epsilon in the options is consumed by the external hull routine,
whose flat index output is the `hull` parameter here. -/
def NewTriangulation (vertices : List Vec3) (hull : List ℕ)
    (setters : List (TriangulationOptions → Except Err TriangulationOptions)) :
    Except Err Triangulation :=
  match applySetters setters ⟨defaultEps⟩ with
  | .error e => .error e
  | .ok _opts =>
    if vertices.length < 4 then .error .insufficientInput
    else buildFromHull vertices hull

/-- `triangleCircumcenter`: cross the two edge vectors of the triangle's
sphere points, then orient the result outward by flipping its sign if
its dot product with the sum of the three site vectors is negative. -/
def triangleCircumcenter (p1 p2 p3 : Vec3) : Vec3 :=
  let v1 := p1.sub p2
  let v2 := p2.sub p3
  let circumcenter := v1.cross v2
  if circumcenter.dot ((p1.add p2).add p3) < 0 then circumcenter.mul (-1) else circumcenter

/-- The Voronoi diagram.  The `Vertices` field of the Go struct (one
unit-normalised circumcenter per triangle) is real-valued because of the
normalisation; it is modelled by the indexed function `DiagramVertex`
below, keeping this structure computable. -/
structure Diagram where
  Sites : List Vec3
  CellVertices : List ℕ
  CellNeighbors : List ℕ
  CellOffsets : List ℕ
deriving DecidableEq

/-- The Voronoi vertex stored at index `i` of the diagram built from `dt`:
the unit-normalised circumcenter of triangle `i` (`d.Vertices[i]`). -/
noncomputable def DiagramVertex (dt : Triangulation) (i : ℕ) : Vec3R :=
  let tri := dt.Triangles.getD i default
  ((triangleCircumcenter (dt.Vertices.getD tri.a default) (dt.Vertices.getD tri.b default)
    (dt.Vertices.getD tri.c default)).toR).normalize

/-- Neighbor fill for one cell: for the `i`-th incident triangle of `vIdx`,
write `NextVertex(triangle, vIdx)` at `CellNeighbors[offset+i]`.  (In the
source this call site uses the error-free variant of `NextVertex`; the
default `0` is never reached because the site is a vertex of each of its
incident triangles.) -/
def fillCellNeighbors (dt : Triangulation) (cn : List ℕ) (vIdx : ℕ) : List ℕ :=
  let offset := dt.IncidentTriangleOffsets.getD vIdx 0
  let it := (dt.IncidentTriangleIndices.drop offset).take
    (dt.IncidentTriangleOffsets.getD (vIdx + 1) 0 - offset)
  (List.range it.length).foldl
    (fun cn i =>
      cn.set (offset + i) ((NextVertex (dt.Triangles.getD (it.getD i 0) default) vIdx).getD 0))
    cn

/-- `NewDiagram`: an epsilon of `0` means "not overridden" and selects the
default `1e-12`; the Delaunay triangulation is built first, then its CSR
arrays are reused as the cell structure and the neighbor array is filled
in lockstep with each site's incidence slice. -/
def NewDiagram (sites : List Vec3) (hull : List ℕ) (eps : ℚ) : Except Err Diagram :=
  let eps' := if eps = 0 then defaultEps else eps
  match NewTriangulation sites hull [WithEps eps'] with
  | .error e => .error e
  | .ok dt =>
    let numNeighbors := dt.IncidentTriangleIndices.length
    let cellNeighbors := (List.range dt.Vertices.length).foldl (fillCellNeighbors dt)
      (List.replicate numNeighbors 0)
    .ok { Sites := dt.Vertices, CellVertices := dt.IncidentTriangleIndices,
          CellNeighbors := cellNeighbors, CellOffsets := dt.IncidentTriangleOffsets }

deriving instance DecidableEq for Except

/-- The step guarantee established by the CCW incidence sort, read along the
sorted fan left to right with `prev` the entry of the previous slot: each
slot's triangle either matches (its `PrevVertex` at the site equals the
previous slot's triangle's `NextVertex`) or no entry from that slot
onward matches. -/
def fanOk (v : ℕ) (tris : List Tri) : ℕ → List ℕ → Prop
  | _, [] => True
  | prev, b :: rest =>
    (PrevVertex (tris.getD b default) v = NextVertex (tris.getD prev default) v ∨
      ∀ c ∈ b :: rest,
        PrevVertex (tris.getD c default) v ≠ NextVertex (tris.getD prev default) v)
    ∧ fanOk v tris b rest

/-- The raw (pre-orientation) vertex triple of triangle `i` in the hull
collaborator's flat output. -/
def rawTriple (hull : List ℕ) (i : ℕ) : Tri :=
  ⟨hull.getD (3 * i) 0, hull.getD (3 * i + 1) 0, hull.getD (3 * i + 2) 0⟩

/-- Loop invariant of the placement pass after `k` of the `3 * numTriangles`
incidence writes: each per-site cursor sits at the site's start offset
plus the site's multiplicity among the first `k` hull entries, and every
filled cell of a site's CSR region holds a triangle (with index below
`bound`) whose raw triple contains the site. -/
def PlaceInv (N T : ℕ) (hull OFF : List ℕ) (k bound : ℕ) (ind nxt : List ℕ) : Prop :=
  ind.length = T * 3 ∧ nxt.length = N ∧
  (∀ v, v < N → nxt.getD v 0 = OFF.getD v 0 + (hull.take k).count v) ∧
  (∀ v, v < N → ∀ p, OFF.getD v 0 ≤ p → p < nxt.getD v 0 →
    ∃ t, t < bound ∧ ind.getD p 0 = t ∧ (rawTriple hull t).has v)

/-- Specification of the offsets array produced by the counting and
prefix-sum passes: length `N + 1`, starts at `0`, each increment is the
multiplicity of the site in the hull output, and (since the counting
pass bounds-checks every write) every hull index is below `N`. -/
def OffsetsSpec (N : ℕ) (hull OFF : List ℕ) : Prop :=
  OFF.length = N + 1 ∧ OFF.getD 0 0 = 0 ∧
  (∀ v, v < N → OFF.getD (v + 1) 0 = OFF.getD v 0 + hull.count v) ∧
  (∀ x ∈ hull, x < N)

/-! Concrete sample inputs, used to witness the theorems below on explicit
runs of the pipeline.  `sampleVerts`/`sampleHull` is a tetrahedron with a
well-formed hull output.  `dupHull` repeats one triangle four times: a
cardinality-correct but malformed hull output.  `degHull` contains
triples with a repeated vertex (degenerate triangles). -/

def sampleVerts : List Vec3 := [⟨1, 0, 0⟩, ⟨0, 1, 0⟩, ⟨0, 0, 1⟩, ⟨-1, -1, -1⟩]

def sampleHull : List ℕ := [0, 1, 2, 0, 3, 1, 0, 2, 3, 1, 3, 2]

/-- The triangulation built from the sample tetrahedron input. -/
def sampleTri : Triangulation :=
  match NewTriangulation sampleVerts sampleHull [] with
  | .ok t => t
  | .error _ => default

/-- The diagram built from the sample tetrahedron input. -/
def sampleDia : Diagram :=
  match NewDiagram sampleVerts sampleHull 0 with
  | .ok d => d
  | .error _ => ⟨[], [], [], []⟩

def dupVerts : List Vec3 := [⟨1, 0, 0⟩, ⟨0, 1, 0⟩, ⟨0, 0, 1⟩, ⟨0, 0, -1⟩]

def dupHull : List ℕ := [0, 1, 2, 0, 1, 2, 0, 1, 2, 0, 1, 2]

/-- The triangulation built from the malformed duplicated-triangle hull. -/
def dupTri : Triangulation :=
  match NewTriangulation dupVerts dupHull [] with
  | .ok t => t
  | .error _ => default

def degHull : List ℕ := [0, 0, 1, 0, 0, 1, 0, 0, 1, 0, 0, 1]

/-- The triangulation built from the degenerate-triangle hull. -/
def degTri : Triangulation :=
  match NewTriangulation dupVerts degHull [WithEps defaultEps] with
  | .ok t => t
  | .error _ => default

/-- The diagram built from the degenerate-triangle hull. -/
def degDia : Diagram :=
  match NewDiagram dupVerts degHull 0 with
  | .ok d => d
  | .error _ => ⟨[], [], [], []⟩

/-! Generic list lemmas used throughout the development. -/

section ListLemmas

variable {α : Type*}

theorem getD_set_self (l : List α) (i : ℕ) (x d : α) (h : i < l.length) :
    (l.set i x).getD i d = x := by
  rw [List.getD_eq_getElem _ _ (by simpa using h)]
  simp [List.getElem_set]

theorem getD_set_ne (l : List α) (i j : ℕ) (x d : α) (h : i ≠ j) :
    (l.set i x).getD j d = l.getD j d := by
  simp only [List.getD_eq_getElem?_getD]
  rw [List.getElem?_set_ne h]

theorem getD_replicate (n i : ℕ) (a d : α) (h : i < n) :
    (List.replicate n a).getD i d = a := by
  rw [List.getD_eq_getElem _ _ (by simpa using h)]
  simp

theorem getD_oob (l : List α) (i : ℕ) (d : α) (h : l.length ≤ i) : l.getD i d = d := by
  simp only [List.getD_eq_getElem?_getD]
  rw [List.getElem?_eq_none (by simpa using h)]
  rfl

theorem getD_drop' (l : List α) (s i : ℕ) (d : α) :
    (l.drop s).getD i d = l.getD (s + i) d := by
  simp only [List.getD_eq_getElem?_getD]
  rw [List.getElem?_drop]

theorem getD_take' (l : List α) (n i : ℕ) (d : α) (h : i < n) :
    (l.take n).getD i d = l.getD i d := by
  simp only [List.getD_eq_getElem?_getD]
  rw [List.getElem?_take_of_lt h]

theorem getD_append_left (l₁ l₂ : List α) (i : ℕ) (d : α) (h : i < l₁.length) :
    (l₁ ++ l₂).getD i d = l₁.getD i d := by
  simp only [List.getD_eq_getElem?_getD]
  rw [List.getElem?_append, if_pos h]

theorem getD_append_right (l₁ l₂ : List α) (i : ℕ) (d : α) (h : l₁.length ≤ i) :
    (l₁ ++ l₂).getD i d = l₂.getD (i - l₁.length) d := by
  simp only [List.getD_eq_getElem?_getD]
  rw [List.getElem?_append, if_neg (by omega)]

theorem mem_iff_getD (l : List α) (e d : α) :
    e ∈ l ↔ ∃ i, i < l.length ∧ l.getD i d = e := by
  constructor
  · intro h
    obtain ⟨i, hi, he⟩ := List.mem_iff_getElem.1 h
    exact ⟨i, hi, by rw [List.getD_eq_getElem _ _ (by simpa using hi)]; exact he⟩
  · rintro ⟨i, hi, he⟩
    rw [List.getD_eq_getElem _ _ (by simpa using hi)] at he
    exact he ▸ List.getElem_mem hi

theorem list_ext_getD (l₁ l₂ : List α) (d : α) (hlen : l₁.length = l₂.length)
    (h : ∀ i, i < l₁.length → l₁.getD i d = l₂.getD i d) : l₁ = l₂ := by
  apply List.ext_getElem hlen
  intro i h1 h2
  have := h i h1
  rwa [List.getD_eq_getElem _ _ (by simpa using h1),
    List.getD_eq_getElem _ _ (by simpa using h2)] at this

/-- Loop-invariant principle for a left fold over `List.range n`. -/
theorem foldl_range_inv {σ : Type*} (n : ℕ) (f : σ → ℕ → σ) (s0 : σ) (Inv : ℕ → σ → Prop)
    (h0 : Inv 0 s0) (hstep : ∀ i s, i < n → Inv i s → Inv (i + 1) (f s i)) :
    Inv n ((List.range n).foldl f s0) := by
  induction n with
  | zero => simpa using h0
  | succ m ih =>
    rw [List.range_succ, List.foldl_append]
    exact hstep m _ (Nat.lt_succ_self m)
      (ih (fun i s hi hs => hstep i s (Nat.lt_succ_of_lt hi) hs))

theorem sum_count_eq_length (hull : List ℕ) (N : ℕ) (h : ∀ x ∈ hull, x < N) :
    ∑ v ∈ Finset.range N, hull.count v = hull.length := by
  induction hull with
  | nil => simp
  | cons x t ih =>
    have hx : x ∈ Finset.range N := Finset.mem_range.2 (h x (List.mem_cons_self x t))
    have ht := ih (fun y hy => h y (List.mem_cons_of_mem x hy))
    simp only [List.count_cons, List.length_cons]
    rw [Finset.sum_add_distrib, ht]
    have hsum : (∑ v ∈ Finset.range N, if (x == v) = true then 1 else 0) = 1 := by
      simp only [beq_iff_eq]
      rw [Finset.sum_ite_eq (Finset.range N) x (fun _ => 1)]
      simp [hx]
    omega

end ListLemmas

/-! Basic facts about `NextVertex` and `PrevVertex`. -/

theorem NextVertex_isSome_iff (t : Tri) (v : ℕ) : (NextVertex t v).isSome ↔ t.has v := by
  unfold NextVertex Tri.has
  split_ifs <;> simp_all

theorem PrevVertex_isSome_iff (t : Tri) (v : ℕ) : (PrevVertex t v).isSome ↔ t.has v := by
  unfold PrevVertex Tri.has
  split_ifs <;> simp_all

theorem Tri.has_of_NextVertex_eq_some (t : Tri) (v u : ℕ) (h : NextVertex t v = some u) :
    t.has v := by
  rw [← NextVertex_isSome_iff, h]
  rfl

theorem NextVertex_eq_none_of_not_has (t : Tri) (v : ℕ) (h : ¬t.has v) :
    NextVertex t v = none := by
  cases hn : NextVertex t v with
  | none => rfl
  | some u => exact absurd (Tri.has_of_NextVertex_eq_some t v u hn) h

theorem Tri.has_of_PrevVertex_eq_some (t : Tri) (v u : ℕ) (h : PrevVertex t v = some u) :
    t.has v := by
  rw [← PrevVertex_isSome_iff, h]
  rfl

theorem PrevVertex_eq_none_of_not_has (t : Tri) (v : ℕ) (h : ¬t.has v) :
    PrevVertex t v = none := by
  cases hn : PrevVertex t v with
  | none => rfl
  | some u => exact absurd (Tri.has_of_PrevVertex_eq_some t v u hn) h

/-- The orientation pass keeps the triangle's vertex set. -/
theorem sortTriangleVerticesCCW_has (t : Tri) (verts : List Vec3) (v : ℕ) :
    (sortTriangleVerticesCCW t verts).has v ↔ t.has v := by
  show (if (((verts.getD t.b default).sub (verts.getD t.a default)).cross
      ((verts.getD t.c default).sub (verts.getD t.a default))).dot (verts.getD t.a default) < 0
    then (⟨t.a, t.c, t.b⟩ : Tri) else t).has v ↔ t.has v
  split_ifs <;> simp only [Tri.has] <;> tauto

/-! Facts about the inner scan of the CCW incidence sort. -/

theorem scanMatch_some_length (v : ℕ) (tris : List Tri) (nxt head : ℕ) :
    ∀ (l l' : List ℕ) (c' : ℕ), scanMatch v tris nxt head l = some (some (c', l')) →
      l'.length = l.length := by
  intro l
  induction l with
  | nil => intro l' c' h; simp [scanMatch] at h
  | cons c rest ih =>
    intro l' c' h
    rw [scanMatch] at h
    cases hp : PrevVertex (tris.getD c default) v with
    | none => rw [hp] at h; simp at h
    | some prv =>
      rw [hp] at h
      by_cases he : prv = nxt
      · simp [he] at h
        obtain ⟨h1, h2⟩ := h
        simp [← h2]
      · simp [he] at h
        cases hs : scanMatch v tris nxt head rest with
        | none => rw [hs] at h; simp at h
        | some o =>
          cases o with
          | none => rw [hs] at h; simp at h
          | some p =>
            rw [hs] at h
            simp at h
            obtain ⟨h1, h2⟩ := h
            have := ih p.2 p.1 (by rw [hs])
            simp [← h2, this]

theorem scanMatch_found_prv (v : ℕ) (tris : List Tri) (nxt head : ℕ) :
    ∀ (l l' : List ℕ) (c' : ℕ), scanMatch v tris nxt head l = some (some (c', l')) →
      PrevVertex (tris.getD c' default) v = some nxt := by
  intro l
  induction l with
  | nil => intro l' c' h; simp [scanMatch] at h
  | cons c rest ih =>
    intro l' c' h
    rw [scanMatch] at h
    cases hp : PrevVertex (tris.getD c default) v with
    | none => rw [hp] at h; simp at h
    | some prv =>
      rw [hp] at h
      by_cases he : prv = nxt
      · simp [he] at h
        obtain ⟨h1, h2⟩ := h
        rw [← h1, hp, he]
      · simp [he] at h
        cases hs : scanMatch v tris nxt head rest with
        | none => rw [hs] at h; simp at h
        | some o =>
          cases o with
          | none => rw [hs] at h; simp at h
          | some p =>
            rw [hs] at h
            simp at h
            obtain ⟨h1, h2⟩ := h
            rw [← h1]
            exact ih p.2 p.1 (by rw [hs])

theorem scanMatch_perm (v : ℕ) (tris : List Tri) (nxt head : ℕ) :
    ∀ (l l' : List ℕ) (c' : ℕ), scanMatch v tris nxt head l = some (some (c', l')) →
      (c' :: l').Perm (head :: l) := by
  intro l
  induction l with
  | nil => intro l' c' h; simp [scanMatch] at h
  | cons c rest ih =>
    intro l' c' h
    rw [scanMatch] at h
    cases hp : PrevVertex (tris.getD c default) v with
    | none => rw [hp] at h; simp at h
    | some prv =>
      rw [hp] at h
      by_cases he : prv = nxt
      · simp [he] at h
        obtain ⟨h1, h2⟩ := h
        rw [← h1, ← h2]
        exact List.Perm.swap head c rest
      · simp [he] at h
        cases hs : scanMatch v tris nxt head rest with
        | none => rw [hs] at h; simp at h
        | some o =>
          cases o with
          | none => rw [hs] at h; simp at h
          | some p =>
            rw [hs] at h
            simp at h
            obtain ⟨h1, h2⟩ := h
            have hperm := ih p.2 p.1 (by rw [hs])
            rw [← h1, ← h2]
            exact ((List.Perm.swap c p.1 p.2).trans (hperm.cons c)).trans
              (List.Perm.swap head c rest)

theorem scanMatch_none_nomatch (v : ℕ) (tris : List Tri) (nxt head : ℕ) :
    ∀ (l : List ℕ), scanMatch v tris nxt head l = some none →
      ∀ c ∈ l, PrevVertex (tris.getD c default) v ≠ some nxt := by
  intro l
  induction l with
  | nil => intro _ c hc; simp at hc
  | cons c rest ih =>
    intro h c' hc'
    rw [scanMatch] at h
    cases hp : PrevVertex (tris.getD c default) v with
    | none => rw [hp] at h; simp at h
    | some prv =>
      rw [hp] at h
      by_cases he : prv = nxt
      · simp [he] at h
      · simp [he] at h
        cases hs : scanMatch v tris nxt head rest with
        | none => rw [hs] at h; simp at h
        | some o =>
          cases o with
          | none =>
            rcases List.mem_cons.1 hc' with rfl | hmem
            · rw [hp]; simp [he]
            · exact ih hs c' hmem
          | some p => rw [hs] at h; simp at h

theorem scanMatch_ne_none (v : ℕ) (tris : List Tri) (nxt head : ℕ) :
    ∀ (l : List ℕ), (∀ c ∈ l, (tris.getD c default).has v) →
      scanMatch v tris nxt head l ≠ none := by
  intro l
  induction l with
  | nil => intro _ h; simp [scanMatch] at h
  | cons c rest ih =>
    intro hall h
    rw [scanMatch] at h
    cases hp : PrevVertex (tris.getD c default) v with
    | none =>
      have := (PrevVertex_isSome_iff (tris.getD c default) v).2
        (hall c (List.mem_cons_self c rest))
      rw [hp] at this
      simp at this
    | some prv =>
      rw [hp] at h
      by_cases he : prv = nxt
      · simp [he] at h
      · simp [he] at h
        cases hs : scanMatch v tris nxt head rest with
        | none => exact ih (fun c' hc' => hall c' (List.mem_cons_of_mem c hc')) hs
        | some o => rw [hs] at h; cases o <;> simp at h

/-! Facts about the outer loop of the CCW incidence sort. -/

theorem sortFanGo_perm (v : ℕ) (tris : List Tri) :
    ∀ (fuel prev : ℕ) (l r : List ℕ), sortFanGo v tris fuel prev l = some r → r.Perm l := by
  intro fuel
  induction fuel with
  | zero =>
    intro prev l r h
    cases l with
    | nil => simp [sortFanGo] at h; simp [← h]
    | cons a l' => simp [sortFanGo] at h
  | succ fuel ih =>
    intro prev l r h
    cases l with
    | nil => simp [sortFanGo] at h; simp [← h]
    | cons head rest =>
      rw [sortFanGo] at h
      cases hn : NextVertex (tris.getD prev default) v with
      | none => rw [hn] at h; simp at h
      | some nxt =>
        rw [hn] at h
        dsimp only at h
        cases hs : scanMatch v tris nxt head rest with
        | none => rw [hs] at h; simp at h
        | some o =>
          rw [hs] at h
          cases o with
          | none =>
            cases hr : sortFanGo v tris fuel head rest with
            | none => rw [hr] at h; simp at h
            | some r0 =>
              rw [hr] at h
              simp at h
              rw [← h]
              exact (ih head rest r0 hr).cons head
          | some p =>
            obtain ⟨c', l'⟩ := p
            dsimp only at h
            cases hr : sortFanGo v tris fuel c' l' with
            | none => rw [hr] at h; simp at h
            | some r0 =>
              rw [hr] at h
              simp at h
              rw [← h]
              exact ((ih c' l' r0 hr).cons c').trans
                (scanMatch_perm v tris nxt head rest l' c' (by rw [hs]))

theorem sortFanGo_fanOk (v : ℕ) (tris : List Tri) :
    ∀ (fuel prev : ℕ) (l r : List ℕ), sortFanGo v tris fuel prev l = some r →
      fanOk v tris prev r := by
  intro fuel
  induction fuel with
  | zero =>
    intro prev l r h
    cases l with
    | nil =>
      simp [sortFanGo] at h
      subst h
      simp [fanOk]
    | cons a l' => simp [sortFanGo] at h
  | succ fuel ih =>
    intro prev l r h
    cases l with
    | nil =>
      simp [sortFanGo] at h
      subst h
      simp [fanOk]
    | cons head rest =>
      rw [sortFanGo] at h
      cases hn : NextVertex (tris.getD prev default) v with
      | none => rw [hn] at h; simp at h
      | some nxt =>
        rw [hn] at h
        dsimp only at h
        cases hs : scanMatch v tris nxt head rest with
        | none => rw [hs] at h; simp at h
        | some o =>
          rw [hs] at h
          cases o with
          | none =>
            cases hr : sortFanGo v tris fuel head rest with
            | none => rw [hr] at h; simp at h
            | some r0 =>
              rw [hr] at h
              simp at h
              rw [← h, fanOk]
              refine ⟨?_, ih head rest r0 hr⟩
              by_cases hh : PrevVertex (tris.getD head default) v =
                  NextVertex (tris.getD prev default) v
              · exact Or.inl hh
              · refine Or.inr ?_
                intro c hc
                rcases List.mem_cons.1 hc with rfl | hmem
                · exact hh
                · have hmem' : c ∈ rest :=
                    ((sortFanGo_perm v tris fuel head rest r0 hr).mem_iff).1 hmem
                  rw [hn]
                  exact scanMatch_none_nomatch v tris nxt head rest hs c hmem'
          | some p =>
            obtain ⟨c', l'⟩ := p
            dsimp only at h
            cases hr : sortFanGo v tris fuel c' l' with
            | none => rw [hr] at h; simp at h
            | some r0 =>
              rw [hr] at h
              simp at h
              rw [← h, fanOk]
              refine ⟨Or.inl ?_, ih c' l' r0 hr⟩
              rw [hn]
              exact scanMatch_found_prv v tris nxt head rest l' c' (by rw [hs])

theorem sortFanGo_isSome (v : ℕ) (tris : List Tri) :
    ∀ (fuel prev : ℕ) (l : List ℕ), l.length ≤ fuel →
      (tris.getD prev default).has v → (∀ c ∈ l, (tris.getD c default).has v) →
      ∃ r, sortFanGo v tris fuel prev l = some r := by
  intro fuel
  induction fuel with
  | zero =>
    intro prev l hlen _ _
    cases l with
    | nil => exact ⟨[], by simp [sortFanGo]⟩
    | cons a l' => simp at hlen
  | succ fuel ih =>
    intro prev l hlen hprev hall
    cases l with
    | nil => exact ⟨[], by simp [sortFanGo]⟩
    | cons head rest =>
      rw [sortFanGo]
      cases hn : NextVertex (tris.getD prev default) v with
      | none =>
        have := (NextVertex_isSome_iff (tris.getD prev default) v).2 hprev
        rw [hn] at this
        simp at this
      | some nxt =>
        cases hs : scanMatch v tris nxt head rest with
        | none =>
          exact absurd hs
            (scanMatch_ne_none v tris nxt head rest
              (fun c hc => hall c (List.mem_cons_of_mem head hc)))
        | some o =>
          cases o with
          | none =>
            have hreclen : rest.length ≤ fuel := by simp at hlen; omega
            obtain ⟨r0, hr0⟩ := ih head rest hreclen
              (hall head (List.mem_cons_self head rest))
              (fun c hc => hall c (List.mem_cons_of_mem head hc))
            exact ⟨head :: r0, by simp [sortFanGo, hn, hs, hr0]⟩
          | some p =>
            obtain ⟨c', l'⟩ := p
            have hperm := scanMatch_perm v tris nxt head rest l' c' (by rw [hs])
            have hlen' : l'.length = rest.length :=
              scanMatch_some_length v tris nxt head rest l' c' (by rw [hs])
            have hreclen : l'.length ≤ fuel := by simp at hlen; omega
            have hmem : ∀ c ∈ c' :: l', (tris.getD c default).has v := by
              intro c hc
              exact hall c (hperm.mem_iff.1 hc)
            obtain ⟨r0, hr0⟩ := ih c' l' hreclen
              (hmem c' (List.mem_cons_self c' l'))
              (fun c hc => hmem c (List.mem_cons_of_mem c' hc))
            exact ⟨c' :: r0, by simp [sortFanGo, hn, hs, hr0]⟩

/-! Facts about `sortIncidentTriangleIndicesCCW`. -/

theorem sortIncident_perm (v : ℕ) (l : List ℕ) (tris : List Tri) (r : List ℕ)
    (h : sortIncidentTriangleIndicesCCW v l tris = some r) : r.Perm l := by
  cases l with
  | nil => simp [sortIncidentTriangleIndicesCCW] at h; simp [← h]
  | cons hd rest =>
    rw [sortIncidentTriangleIndicesCCW] at h
    cases hr : sortFanGo v tris rest.length hd rest with
    | none => rw [hr] at h; simp at h
    | some r0 =>
      rw [hr] at h
      simp at h
      rw [← h]
      exact (sortFanGo_perm v tris rest.length hd rest r0 hr).cons hd

theorem sortIncident_length (v : ℕ) (l : List ℕ) (tris : List Tri) (r : List ℕ)
    (h : sortIncidentTriangleIndicesCCW v l tris = some r) : r.length = l.length :=
  (sortIncident_perm v l tris r h).length_eq

theorem fanOk_pairs (v : ℕ) (tris : List Tri) :
    ∀ (r : List ℕ) (prev : ℕ), fanOk v tris prev r → ∀ k, k < r.length →
      (PrevVertex (tris.getD (r.getD k 0) default) v =
          NextVertex (tris.getD ((prev :: r).getD k 0) default) v ∨
        ∀ c ∈ r.drop k, PrevVertex (tris.getD c default) v ≠
          NextVertex (tris.getD ((prev :: r).getD k 0) default) v) := by
  intro r
  induction r with
  | nil => intro prev _ k hk; simp at hk
  | cons b rest ih =>
    intro prev hok k hk
    rw [fanOk] at hok
    cases k with
    | zero => simpa using hok.1
    | succ k =>
      have := ih b hok.2 k (by simpa using hk)
      simpa using this

theorem sortIncident_pairs (v : ℕ) (l : List ℕ) (tris : List Tri) (r : List ℕ)
    (h : sortIncidentTriangleIndicesCCW v l tris = some r) :
    ∀ k, 1 ≤ k → k < r.length →
      PrevVertex (tris.getD (r.getD k 0) default) v =
        NextVertex (tris.getD (r.getD (k - 1) 0) default) v ∨
      ∀ c ∈ r.drop k, PrevVertex (tris.getD c default) v ≠
        NextVertex (tris.getD (r.getD (k - 1) 0) default) v := by
  intro k hk1 hk2
  cases l with
  | nil =>
    simp [sortIncidentTriangleIndicesCCW] at h
    subst h
    simp at hk2
  | cons hd rest =>
    rw [sortIncidentTriangleIndicesCCW] at h
    cases hr : sortFanGo v tris rest.length hd rest with
    | none => rw [hr] at h; simp at h
    | some r0 =>
      rw [hr] at h
      simp at h
      subst h
      have hok := sortFanGo_fanOk v tris rest.length hd rest r0 hr
      obtain ⟨k, rfl⟩ : ∃ k', k = k' + 1 := ⟨k - 1, by omega⟩
      have hk2' : k < r0.length := by simpa using hk2
      have := fanOk_pairs v tris r0 hd hok k hk2'
      simpa using this

theorem sortIncident_isSome (v : ℕ) (l : List ℕ) (tris : List Tri)
    (hall : ∀ c ∈ l, (tris.getD c default).has v) :
    ∃ r, sortIncidentTriangleIndicesCCW v l tris = some r := by
  cases l with
  | nil => exact ⟨[], by simp [sortIncidentTriangleIndicesCCW]⟩
  | cons hd rest =>
    rw [sortIncidentTriangleIndicesCCW]
    obtain ⟨r0, hr0⟩ := sortFanGo_isSome v tris rest.length hd rest le_rfl
      (hall hd (List.mem_cons_self hd rest))
      (fun c hc => hall c (List.mem_cons_of_mem hd hc))
    exact ⟨hd :: r0, by rw [hr0]⟩

/-! Facts about the counting pass. -/

theorem countPassGo_ok : ∀ (hull off off' : List ℕ), countPassGo off hull = .ok off' →
    off'.length = off.length ∧ (∀ idx ∈ hull, idx + 1 < off.length) ∧
    off'.getD 0 0 = off.getD 0 0 ∧
    ∀ w, w + 1 < off.length → off'.getD (w + 1) 0 = off.getD (w + 1) 0 + hull.count w := by
  intro hull
  induction hull with
  | nil =>
    intro off off' h
    rw [countPassGo] at h
    simp at h
    subst h
    refine ⟨rfl, by simp, rfl, fun w _ => by simp⟩
  | cons idx rest ih =>
    intro off off' h
    rw [countPassGo] at h
    by_cases hb : idx + 1 < off.length
    · rw [if_pos hb] at h
      obtain ⟨hlen, hmem, h0, hw⟩ := ih _ _ h
      have hsl : (off.set (idx + 1) (off.getD (idx + 1) 0 + 1)).length = off.length :=
        List.length_set off _ _
      rw [hsl] at hlen hmem
      refine ⟨hlen, ?_, ?_, ?_⟩
      · intro i hi
        rcases List.mem_cons.1 hi with rfl | hm
        · exact hb
        · exact hmem i hm
      · rw [h0, getD_set_ne _ _ _ _ _ (by omega)]
      · intro w hwlt
        rw [hw w (by omega)]
        by_cases he : idx = w
        · subst he
          rw [getD_set_self _ _ _ _ (by omega)]
          simp [List.count_cons]
          omega
        · rw [getD_set_ne _ _ _ _ _ (by omega)]
          have : (idx :: rest).count w = rest.count w := by
            simp [List.count_cons, he]
          omega
    · rw [if_neg hb] at h
      simp at h

/-! Facts about the prefix-sum pass. -/

theorem prefixPass_spec (N : ℕ) (C : List ℕ) (hC : C.length = N + 1) :
    (prefixPass N C).length = N + 1 ∧
    ∀ w, w ≤ N → (prefixPass N C).getD w 0 = ∑ u ∈ Finset.range (w + 1), C.getD u 0 := by
  have main := foldl_range_inv N
    (fun o i => o.set (i + 1) (o.getD (i + 1) 0 + o.getD i 0)) C
    (fun k o => o.length = N + 1 ∧
      (∀ w, w ≤ k → o.getD w 0 = ∑ u ∈ Finset.range (w + 1), C.getD u 0) ∧
      (∀ w, k < w → w ≤ N → o.getD w 0 = C.getD w 0))
    ⟨hC, by
      intro w hw
      interval_cases w
      simp [Finset.sum_range_one], fun w _ _ => rfl⟩
    (by
      intro i o hi ho
      obtain ⟨hlen, hdone, hrest⟩ := ho
      have hi1 : i + 1 < o.length := by omega
      refine ⟨by rw [List.length_set]; exact hlen, ?_, ?_⟩
      · intro w hw
        rcases Nat.lt_or_ge w (i + 1) with hlt | hge
        · rw [getD_set_ne _ _ _ _ _ (by omega)]
          exact hdone w (by omega)
        · have hw' : w = i + 1 := by omega
          subst hw'
          rw [getD_set_self _ _ _ _ hi1]
          rw [Finset.sum_range_succ, hdone i (by omega),
            hrest (i + 1) (by omega) (by omega)]
          omega
      · intro w hw1 hw2
        rw [getD_set_ne _ _ _ _ _ (by omega)]
        exact hrest w (by omega) hw2)
  exact ⟨main.1, fun w hw => main.2.1 w hw⟩

/-- The counting and prefix-sum passes together produce an offsets array
satisfying `OffsetsSpec`. -/
theorem offsetsSpec_holds (N : ℕ) (hull C : List ℕ)
    (hcp : countPassGo (List.replicate (N + 1) 0) hull = .ok C) :
    OffsetsSpec N hull (prefixPass N C) := by
  obtain ⟨hlen, hmem, h0, hw⟩ := countPassGo_ok hull _ C hcp
  have hrl : (List.replicate (N + 1) (0 : ℕ)).length = N + 1 := List.length_replicate _ _
  rw [hrl] at hlen hmem
  obtain ⟨plen, pval⟩ := prefixPass_spec N C hlen
  have hC0 : C.getD 0 0 = 0 := by
    rw [h0, getD_replicate _ _ _ _ (by omega)]
  have hCw : ∀ w, w < N → C.getD (w + 1) 0 = hull.count w := by
    intro w hwlt
    rw [hw w (by rw [hrl]; omega), getD_replicate _ _ _ _ (by omega)]
    omega
  refine ⟨plen, ?_, ?_, fun x hx => by have := hmem x hx; omega⟩
  · rw [pval 0 (by omega)]
    simpa [Finset.sum_range_one] using hC0
  · intro v hv
    rw [pval (v + 1) (by omega), pval v (by omega), Finset.sum_range_succ, hCw v hv]

theorem OffsetsSpec.mono {N : ℕ} {hull OFF : List ℕ} (h : OffsetsSpec N hull OFF) :
    ∀ u v, u ≤ v → v ≤ N → OFF.getD u 0 ≤ OFF.getD v 0 := by
  obtain ⟨hlen, h0, hstep, hwf⟩ := h
  have key : ∀ d u, u + d ≤ N → OFF.getD u 0 ≤ OFF.getD (u + d) 0 := by
    intro d
    induction d with
    | zero => intro u _; simp
    | succ d ih =>
      intro u hud
      have h1 := ih u (by omega)
      have h2 := hstep (u + d) (by omega)
      calc OFF.getD u 0 ≤ OFF.getD (u + d) 0 := h1
        _ ≤ OFF.getD (u + d + 1) 0 := by omega
        _ = OFF.getD (u + (d + 1)) 0 := by ring_nf
  intro u v huv hvN
  have := key (v - u) u (by omega)
  have heq : u + (v - u) = v := by omega
  rwa [heq] at this

theorem OffsetsSpec.last {N : ℕ} {hull OFF : List ℕ} (h : OffsetsSpec N hull OFF) :
    OFF.getD N 0 = hull.length := by
  obtain ⟨hlen, h0, hstep, hwf⟩ := h
  have key : ∀ k, k ≤ N → OFF.getD k 0 = ∑ v ∈ Finset.range k, hull.count v := by
    intro k
    induction k with
    | zero => intro _; simpa using h0
    | succ k ih =>
      intro hk
      rw [hstep k (by omega), ih (by omega), Finset.sum_range_succ]
  rw [key N le_rfl, sum_count_eq_length hull N hwf]

/-! Counting elements of list prefixes. -/

theorem getD_mem (l : List ℕ) (k : ℕ) (d : ℕ) (h : k < l.length) : l.getD k d ∈ l := by
  rw [List.getD_eq_getElem _ _ (by simpa using h)]
  exact List.getElem_mem h

theorem count_take_le (l : List ℕ) (k v : ℕ) : (l.take k).count v ≤ l.count v :=
  (List.take_sublist k l).count_le v

theorem count_take_succ (l : List ℕ) (k v : ℕ) (h : k < l.length) :
    (l.take (k + 1)).count v =
      (l.take k).count v + (if l.getD k 0 = v then 1 else 0) := by
  rw [List.take_succ]
  have hg : l[k]? = some (l.getD k 0) := by
    rw [List.getD_eq_getElem _ _ (by simpa using h)]
    exact List.getElem?_eq_getElem (by simpa using h)
  rw [hg]
  simp only [Option.toList_some, List.count_append, List.count_singleton, beq_iff_eq]

theorem count_take_lt (l : List ℕ) (k : ℕ) (h : k < l.length) :
    (l.take k).count (l.getD k 0) < l.count (l.getD k 0) := by
  have h1 := count_take_succ l k (l.getD k 0) h
  rw [if_pos rfl] at h1
  have h2 := count_take_le l (k + 1) (l.getD k 0)
  omega

/-! The placement pass. -/

/-- The triangle list produced by the placement pass: the `i`-th triangle is
the CCW-oriented raw triple of the hull output. -/
theorem placePass_triangles (verts : List Vec3) (hull : List ℕ) (T : ℕ)
    (ind0 nxt0 : List ℕ) :
    (placePass verts hull T ind0 nxt0).1 =
      (List.range T).map (fun i => sortTriangleVerticesCCW (rawTriple hull i) verts) := by
  have main := foldl_range_inv T (placeTriangle verts hull) ([], ind0, nxt0)
    (fun i st => st.1 =
      (List.range i).map (fun j => sortTriangleVerticesCCW (rawTriple hull j) verts))
    (by simp)
    (by
      intro i st _ hst
      show st.1 ++ [sortTriangleVerticesCCW (rawTriple hull i) verts] = _
      rw [hst, List.range_succ, List.map_append]
      rfl)
  exact main

theorem placeOne_inv (N T : ℕ) (hull OFF : List ℕ) (hspec : OffsetsSpec N hull OFF)
    (hlen3 : hull.length = T * 3) (bound k : ℕ) (hk : k < hull.length)
    (ind nxt : List ℕ) (hinv : PlaceInv N T hull OFF k bound ind nxt)
    (hhas : (rawTriple hull (k / 3)).has (hull.getD k 0)) (hb : k / 3 < bound) :
    PlaceInv N T hull OFF (k + 1) bound
      (placeOne (k / 3) (hull.getD k 0) (ind, nxt)).1
      (placeOne (k / 3) (hull.getD k 0) (ind, nxt)).2 := by
  obtain ⟨hil, hnl, hcur, hreg⟩ := hinv
  set w := hull.getD k 0 with hw
  have hwN : w < N := hspec.2.2.2 w (getD_mem hull k 0 hk)
  set q := nxt.getD w 0 with hq
  have hcw := hcur w hwN
  have hlt : (hull.take k).count w < hull.count w := by
    have := count_take_lt hull k hk
    rwa [← hw] at this
  have hq2 : q < OFF.getD (w + 1) 0 := by
    have := hspec.2.2.1 w hwN
    omega
  have hq3 : OFF.getD (w + 1) 0 ≤ OFF.getD N 0 := hspec.mono (w + 1) N (by omega) le_rfl
  have hlast : OFF.getD N 0 = hull.length := hspec.last
  have hqlen : q < ind.length := by omega
  constructor
  · show (ind.set q _).length = T * 3
    rw [List.length_set]; exact hil
  constructor
  · show (nxt.set w (q + 1)).length = N
    rw [List.length_set]; exact hnl
  constructor
  · show ∀ v, v < N → (nxt.set w (q + 1)).getD v 0 =
      OFF.getD v 0 + (hull.take (k + 1)).count v
    intro v hv
    rw [count_take_succ hull k v hk, ← hw]
    by_cases he : v = w
    · subst he
      rw [getD_set_self _ _ _ _ (by omega), if_pos rfl]
      omega
    · rw [getD_set_ne _ _ _ _ _ (by omega), hcur v hv, if_neg (by omega)]
      omega
  · show ∀ v, v < N → ∀ p, OFF.getD v 0 ≤ p → p < (nxt.set w (q + 1)).getD v 0 →
      ∃ t, t < bound ∧ (ind.set q (k / 3)).getD p 0 = t ∧ (rawTriple hull t).has v
    intro v hv p hp1 hp2
    by_cases he : v = w
    · subst he
      rw [getD_set_self _ _ _ _ (by omega)] at hp2
      by_cases hpq : p = q
      · subst hpq
        refine ⟨k / 3, hb, ?_, ?_⟩
        · rw [getD_set_self _ _ _ _ hqlen]
        · rwa [hw]
      · obtain ⟨t, ht1, ht2, ht3⟩ := hreg _ hv p hp1 (by omega)
        exact ⟨t, ht1, by rwa [getD_set_ne _ _ _ _ _ (by omega)], ht3⟩
    · rw [getD_set_ne _ _ _ _ _ (by omega)] at hp2
      have hvn : nxt.getD v 0 ≤ OFF.getD (v + 1) 0 := by
        have := hcur v hv
        have := count_take_le hull k v
        have := hspec.2.2.1 v hv
        omega
      have hpq : p ≠ q := by
        rcases Nat.lt_or_ge v w with hvw | hvw
        · have : OFF.getD (v + 1) 0 ≤ OFF.getD w 0 :=
            hspec.mono (v + 1) w (by omega) (by omega)
          omega
        · have hwv : w < v := by omega
          have : OFF.getD (w + 1) 0 ≤ OFF.getD v 0 :=
            hspec.mono (w + 1) v (by omega) (by omega)
          omega
      obtain ⟨t, ht1, ht2, ht3⟩ := hreg v hv p hp1 hp2
      exact ⟨t, ht1, by rwa [getD_set_ne _ _ _ _ _ (by omega)], ht3⟩

theorem PlaceInv.weaken {N T : ℕ} {hull OFF : List ℕ} {k b b' : ℕ} {ind nxt : List ℕ}
    (h : PlaceInv N T hull OFF k b ind nxt) (hb : b ≤ b') :
    PlaceInv N T hull OFF k b' ind nxt := by
  obtain ⟨h1, h2, h3, h4⟩ := h
  refine ⟨h1, h2, h3, fun v hv p hp1 hp2 => ?_⟩
  obtain ⟨t, ht1, ht2, ht3⟩ := h4 v hv p hp1 hp2
  exact ⟨t, by omega, ht2, ht3⟩

theorem placeTriangle_inv (verts : List Vec3) (N T : ℕ) (hull OFF : List ℕ)
    (hspec : OffsetsSpec N hull OFF) (hlen3 : hull.length = T * 3)
    (i : ℕ) (hi : i < T) (tris : List Tri) (ind nxt : List ℕ)
    (hinv : PlaceInv N T hull OFF (3 * i) i ind nxt) :
    PlaceInv N T hull OFF (3 * (i + 1)) (i + 1)
      (placeTriangle verts hull (tris, ind, nxt) i).2.1
      (placeTriangle verts hull (tris, ind, nxt) i).2.2 := by
  have h30 : (3 * i) / 3 = i := by omega
  have h31 : (3 * i + 1) / 3 = i := by omega
  have h32 : (3 * i + 2) / 3 = i := by omega
  have hk0 : 3 * i < hull.length := by omega
  have hk1 : 3 * i + 1 < hull.length := by omega
  have hk2 : 3 * i + 2 < hull.length := by omega
  have hbound : i < i + 1 := Nat.lt_succ_self i
  have hhas0 : (rawTriple hull ((3 * i) / 3)).has (hull.getD (3 * i) 0) := by
    rw [h30]; exact Or.inl rfl
  have hhas1 : (rawTriple hull ((3 * i + 1) / 3)).has (hull.getD (3 * i + 1) 0) := by
    rw [h31]; exact Or.inr (Or.inl rfl)
  have hhas2 : (rawTriple hull ((3 * i + 2) / 3)).has (hull.getD (3 * i + 2) 0) := by
    rw [h32]; exact Or.inr (Or.inr rfl)
  have inv1 := placeOne_inv N T hull OFF hspec hlen3 (i + 1) (3 * i) hk0 ind nxt
    (hinv.weaken (by omega)) hhas0 (by omega)
  rw [h30] at inv1
  have inv2 := placeOne_inv N T hull OFF hspec hlen3 (i + 1) (3 * i + 1) hk1
    (placeOne i (hull.getD (3 * i) 0) (ind, nxt)).1
    (placeOne i (hull.getD (3 * i) 0) (ind, nxt)).2 inv1 hhas1 (by omega)
  rw [h31] at inv2
  have inv3 := placeOne_inv N T hull OFF hspec hlen3 (i + 1) (3 * i + 2) hk2 _ _
    inv2 hhas2 (by omega)
  rw [h32] at inv3
  have harith : 3 * i + 2 + 1 = 3 * (i + 1) := by omega
  rw [harith] at inv3
  exact inv3

theorem placePass_spec (verts : List Vec3) (N T : ℕ) (hull OFF : List ℕ)
    (hspec : OffsetsSpec N hull OFF) (hlen3 : hull.length = T * 3) :
    (placePass verts hull T (List.replicate (T * 3) 0) (OFF.take N)).2.1.length = T * 3 ∧
    ∀ v, v < N → ∀ p, OFF.getD v 0 ≤ p → p < OFF.getD (v + 1) 0 →
      ∃ t, t < T ∧
        (placePass verts hull T (List.replicate (T * 3) 0) (OFF.take N)).2.1.getD p 0 = t ∧
        (rawTriple hull t).has v := by
  have hOlen : OFF.length = N + 1 := hspec.1
  have main := foldl_range_inv T (placeTriangle verts hull)
    ([], List.replicate (T * 3) 0, OFF.take N)
    (fun i st => PlaceInv N T hull OFF (3 * i) i st.2.1 st.2.2)
    (by
      refine ⟨by simp, by simp [List.length_take, hOlen], ?_, ?_⟩
      · intro v hv
        show (OFF.take N).getD v 0 = OFF.getD v 0 + (hull.take 0).count v
        rw [getD_take' _ _ _ _ hv]
        simp
      · intro v hv p hp1 hp2
        have hp2' : p < (OFF.take N).getD v 0 := hp2
        rw [getD_take' _ _ _ _ hv] at hp2'
        exact absurd hp1 (by omega))
    (by
      intro i st hi hst
      obtain ⟨tris, ind, nxt⟩ := st
      exact placeTriangle_inv verts N T hull OFF hspec hlen3 i hi tris ind nxt hst)
  obtain ⟨hlen, _, hcur, hreg⟩ := main
  refine ⟨hlen, ?_⟩
  intro v hv p hp1 hp2
  have htake : hull.take (3 * T) = hull := List.take_of_length_le (by omega)
  have hcv := hcur v hv
  rw [htake] at hcv
  have hoff := hspec.2.2.1 v hv
  exact hreg v hv p hp1 (by omega)

/-! Segment writing (the in-place sorting of a CSR slice view). -/

theorem writeSegment_length (l seg : List ℕ) (s : ℕ) (h : s + seg.length ≤ l.length) :
    (writeSegment l s seg).length = l.length := by
  unfold writeSegment
  rw [List.length_append, List.length_append, List.length_take, List.length_drop]
  omega

theorem writeSegment_getD_lt (l seg : List ℕ) (s p : ℕ) (h : s + seg.length ≤ l.length)
    (hp : p < s) : (writeSegment l s seg).getD p 0 = l.getD p 0 := by
  unfold writeSegment
  rw [List.append_assoc, getD_append_left _ _ _ _ (by rw [List.length_take]; omega)]
  rw [getD_take' _ _ _ _ hp]

theorem writeSegment_getD_mid (l seg : List ℕ) (s p : ℕ) (h : s + seg.length ≤ l.length)
    (hp1 : s ≤ p) (hp2 : p < s + seg.length) :
    (writeSegment l s seg).getD p 0 = seg.getD (p - s) 0 := by
  unfold writeSegment
  have htl : (l.take s).length = s := by rw [List.length_take]; omega
  rw [List.append_assoc, getD_append_right _ _ _ _ (by omega), htl,
    getD_append_left _ _ _ _ (by omega)]

theorem writeSegment_getD_ge (l seg : List ℕ) (s p : ℕ) (h : s + seg.length ≤ l.length)
    (hp : s + seg.length ≤ p) : (writeSegment l s seg).getD p 0 = l.getD p 0 := by
  unfold writeSegment
  have htl : (l.take s).length = s := by rw [List.length_take]; omega
  rw [List.append_assoc, getD_append_right _ _ _ _ (by omega), htl,
    getD_append_right _ _ _ _ (by omega), getD_drop']
  congr 1
  omega

/-! CSR slice views. -/

theorem slice_length (ind : List ℕ) (o1 o2 : ℕ) (h1 : o1 ≤ o2) (h2 : o2 ≤ ind.length) :
    ((ind.drop o1).take (o2 - o1)).length = o2 - o1 := by
  rw [List.length_take, List.length_drop]
  omega

theorem slice_getD (ind : List ℕ) (o1 o2 i : ℕ) (hi : i < o2 - o1) :
    ((ind.drop o1).take (o2 - o1)).getD i 0 = ind.getD (o1 + i) 0 := by
  rw [getD_take' _ _ _ _ hi, getD_drop']

theorem getD_map_range {β : Type*} (f : ℕ → β) (n i : ℕ) (d : β) (h : i < n) :
    ((List.range n).map f).getD i d = f i := by
  rw [List.getD_eq_getElem _ _ (by simpa using h)]
  simp

/-! The final loop of `NewTriangulation`: sorting every site's slice. -/

theorem sortFansGo_inv (N : ℕ) (hull OFF : List ℕ) (hspec : OffsetsSpec N hull OFF)
    (verts : List Vec3) (tris : List Tri) (ind0 : List ℕ)
    (hilen : ind0.length = hull.length) :
    ∀ (m k : ℕ) (t tf : Triangulation), k + m = N →
    t.Vertices = verts → t.Triangles = tris → t.IncidentTriangleOffsets = OFF →
    t.IncidentTriangleIndices.length = hull.length →
    (∀ p, OFF.getD k 0 ≤ p → t.IncidentTriangleIndices.getD p 0 = ind0.getD p 0) →
    (∀ u, u < k → sortIncidentTriangleIndicesCCW u
        ((ind0.drop (OFF.getD u 0)).take (OFF.getD (u + 1) 0 - OFF.getD u 0)) tris =
      some ((t.IncidentTriangleIndices.drop (OFF.getD u 0)).take
        (OFF.getD (u + 1) 0 - OFF.getD u 0))) →
    sortFansGo t (List.range' k m) = .ok tf →
    tf.Vertices = verts ∧ tf.Triangles = tris ∧ tf.IncidentTriangleOffsets = OFF ∧
    tf.IncidentTriangleIndices.length = hull.length ∧
    (∀ u, u < N → sortIncidentTriangleIndicesCCW u
        ((ind0.drop (OFF.getD u 0)).take (OFF.getD (u + 1) 0 - OFF.getD u 0)) tris =
      some ((tf.IncidentTriangleIndices.drop (OFF.getD u 0)).take
        (OFF.getD (u + 1) 0 - OFF.getD u 0))) := by
  intro m
  induction m with
  | zero =>
    intro k t tf hkm h1 h2 h3 h4 h5 h6 hrun
    have : k = N := by omega
    subst this
    rw [show List.range' k 0 = [] from rfl, sortFansGo] at hrun
    simp at hrun
    subst hrun
    exact ⟨h1, h2, h3, h4, h6⟩
  | succ m ih =>
    intro k t tf hkm h1 h2 h3 h4 h5 h6 hrun
    have hkN : k < N := by omega
    have hOlen : OFF.length = N + 1 := hspec.1
    have hmono01 : OFF.getD k 0 ≤ OFF.getD (k + 1) 0 :=
      hspec.mono k (k + 1) (by omega) (by omega)
    have hlastle : OFF.getD (k + 1) 0 ≤ OFF.getD N 0 :=
      hspec.mono (k + 1) N (by omega) le_rfl
    have hlast : OFF.getD N 0 = hull.length := hspec.last
    rw [List.range'_succ, sortFansGo] at hrun
    rw [sortFansStep] at hrun
    rw [Triangulation.IncidentTriangles] at hrun
    rw [h3] at hrun
    rw [if_neg (by rw [hOlen]; omega)] at hrun
    set seg := ((t.IncidentTriangleIndices.drop (OFF.getD k 0)).take
      (OFF.getD (k + 1) 0 - OFF.getD k 0)) with hseg
    have hseglen : seg.length = OFF.getD (k + 1) 0 - OFF.getD k 0 :=
      slice_length _ _ _ hmono01 (by omega)
    have hseg0 : seg = ((ind0.drop (OFF.getD k 0)).take
        (OFF.getD (k + 1) 0 - OFF.getD k 0)) := by
      apply list_ext_getD _ _ 0
      · rw [hseglen, slice_length _ _ _ hmono01 (by omega)]
      · intro i hi
        rw [hseglen] at hi
        rw [hseg, slice_getD _ _ _ _ hi, slice_getD _ _ _ _ hi]
        exact h5 (OFF.getD k 0 + i) (by omega)
    dsimp only at hrun
    rw [h2] at hrun
    cases hsort : sortIncidentTriangleIndicesCCW k seg tris with
    | none => rw [hsort] at hrun; simp at hrun
    | some seg' =>
      rw [hsort] at hrun
      dsimp only at hrun
      have hseg'len : seg'.length = OFF.getD (k + 1) 0 - OFF.getD k 0 := by
        rw [sortIncident_length k seg tris seg' hsort, hseglen]
      have hwrite : OFF.getD k 0 + seg'.length ≤ t.IncidentTriangleIndices.length := by
        rw [hseg'len]
        omega
      set ind' := writeSegment t.IncidentTriangleIndices (OFF.getD k 0) seg' with hind'
      have hind'len : ind'.length = hull.length := by
        rw [hind', writeSegment_length _ _ _ hwrite, h4]
      refine ih (k + 1) ⟨t.Vertices, tris, ind', OFF⟩ tf (by omega) h1 rfl rfl hind'len ?_ ?_ hrun
      · intro p hp
        show ind'.getD p 0 = ind0.getD p 0
        rw [hind', writeSegment_getD_ge _ _ _ _ hwrite (by omega)]
        exact h5 p (by omega)
      · intro u hu
        rcases Nat.lt_or_ge u k with huk | huk
        · have hmono2 : OFF.getD (u + 1) 0 ≤ OFF.getD k 0 :=
            hspec.mono (u + 1) k (by omega) (by omega)
          have hmono3 : OFF.getD u 0 ≤ OFF.getD (u + 1) 0 :=
            hspec.mono u (u + 1) (by omega) (by omega)
          have hslice : ((ind'.drop (OFF.getD u 0)).take
              (OFF.getD (u + 1) 0 - OFF.getD u 0)) =
              ((t.IncidentTriangleIndices.drop (OFF.getD u 0)).take
              (OFF.getD (u + 1) 0 - OFF.getD u 0)) := by
            apply list_ext_getD _ _ 0
            · rw [slice_length _ _ _ hmono3 (by rw [hind'len]; omega),
                slice_length _ _ _ hmono3 (by rw [h4]; omega)]
            · intro i hi
              rw [slice_length _ _ _ hmono3 (by rw [hind'len]; omega)] at hi
              rw [slice_getD _ _ _ _ hi, slice_getD _ _ _ _ hi, hind',
                writeSegment_getD_lt _ _ _ _ hwrite (by omega)]
          show sortIncidentTriangleIndicesCCW u _ tris = some _
          rw [hslice]
          exact h6 u huk
        · have hu' : u = k := by omega
          subst hu'
          have hslice : ((ind'.drop (OFF.getD u 0)).take
              (OFF.getD (u + 1) 0 - OFF.getD u 0)) = seg' := by
            apply list_ext_getD _ _ 0
            · rw [slice_length _ _ _ hmono01 (by rw [hind'len]; omega), hseg'len]
            · intro i hi
              rw [slice_length _ _ _ hmono01 (by rw [hind'len]; omega)] at hi
              rw [slice_getD _ _ _ _ hi, hind',
                writeSegment_getD_mid _ _ _ _ hwrite (by omega) (by omega)]
              congr 1
              omega
          show sortIncidentTriangleIndicesCCW u _ tris = some _
          rw [hslice, ← hseg0]
          exact hsort

/-- Master inversion of a successful `NewTriangulation` run: the setters
succeeded, the input and hull cardinalities are valid, the triangle list
is the oriented hull triples, the offsets satisfy `OffsetsSpec`, and
every site's incidence slice is the CCW sort of a placement slice all of
whose entries are triangles containing the site. -/
theorem NewTriangulation_ok_facts (verts : List Vec3) (hull : List ℕ)
    (setters : List (TriangulationOptions → Except Err TriangulationOptions))
    (t : Triangulation) (h : NewTriangulation verts hull setters = .ok t) :
    (∃ opts, applySetters setters ⟨defaultEps⟩ = .ok opts) ∧
    4 ≤ verts.length ∧
    hull.length = 2 * (verts.length - 2) * 3 ∧
    t.Vertices = verts ∧
    t.Triangles = (List.range (2 * (verts.length - 2))).map
      (fun i => sortTriangleVerticesCCW (rawTriple hull i) verts) ∧
    OffsetsSpec verts.length hull t.IncidentTriangleOffsets ∧
    t.IncidentTriangleIndices.length = hull.length ∧
    ∀ v, v < verts.length → ∃ s0 s,
      t.IncidentTriangles v = .ok s ∧
      sortIncidentTriangleIndicesCCW v s0 t.Triangles = some s ∧
      ∀ e ∈ s0, e < 2 * (verts.length - 2) ∧ (rawTriple hull e).has v := by
  rw [NewTriangulation] at h
  cases hset : applySetters setters ⟨defaultEps⟩ with
  | error e => rw [hset] at h; simp at h
  | ok opts =>
    rw [hset] at h
    dsimp only at h
    by_cases hN : verts.length < 4
    · rw [if_pos hN] at h; simp at h
    · rw [if_neg hN] at h
      simp only [buildFromHull] at h
      by_cases hhl : hull.length = 2 * (verts.length - 2) * 3
      swap
      · rw [if_pos hhl] at h; simp at h
      · rw [if_neg (by omega)] at h
        cases hcount : countPassGo (List.replicate (verts.length + 1) 0) hull with
        | error e => rw [hcount] at h; simp at h
        | ok C =>
          rw [hcount] at h
          dsimp only at h
          set N := verts.length with hNdef
          set T := 2 * (N - 2) with hTdef
          set OFF := prefixPass N C with hOFF
          set st := placePass verts hull T (List.replicate (T * 3) 0) (OFF.take N)
            with hst
          have hspec : OffsetsSpec N hull OFF := offsetsSpec_holds N hull C hcount
          have hplace := placePass_spec verts N T hull OFF hspec hhl
          have htris := placePass_triangles verts hull T
            (List.replicate (T * 3) 0) (OFF.take N)
          have hfans := sortFansGo_inv N hull OFF hspec verts st.1 st.2.1
            (by rw [hplace.1, hhl]) N 0 ⟨verts, st.1, st.2.1, OFF⟩ t (by omega)
            rfl rfl rfl (by show st.2.1.length = hull.length; rw [hplace.1, hhl])
            (fun p _ => rfl) (fun u hu => by omega)
            (by rw [← List.range_eq_range']; exact h)
          obtain ⟨hf1, hf2, hf3, hf4, hf5⟩ := hfans
          have hOlen : OFF.length = N + 1 := hspec.1
          refine ⟨⟨opts, rfl⟩, by omega, hhl, hf1, by rw [hf2, htris],
            by rw [hf3]; exact hspec, hf4, ?_⟩
          intro v hv
          have hm1 : OFF.getD v 0 ≤ OFF.getD (v + 1) 0 := hspec.mono v (v + 1) (by omega) (by omega)
          have hm2 : OFF.getD (v + 1) 0 ≤ OFF.getD N 0 := hspec.mono (v + 1) N (by omega) le_rfl
          have hlast : OFF.getD N 0 = hull.length := hspec.last
          refine ⟨(st.2.1.drop (OFF.getD v 0)).take (OFF.getD (v + 1) 0 - OFF.getD v 0),
            (t.IncidentTriangleIndices.drop (OFF.getD v 0)).take
              (OFF.getD (v + 1) 0 - OFF.getD v 0), ?_, ?_, ?_⟩
          · rw [Triangulation.IncidentTriangles, hf3, if_neg (by rw [hOlen]; omega)]
          · rw [hf2]
            exact hf5 v hv
          · intro e he
            have hs0len : ((st.2.1.drop (OFF.getD v 0)).take
                (OFF.getD (v + 1) 0 - OFF.getD v 0)).length =
                OFF.getD (v + 1) 0 - OFF.getD v 0 := by
              apply slice_length _ _ _ hm1
              rw [hplace.1]
              omega
            obtain ⟨i, hi, hgi⟩ := (mem_iff_getD _ e 0).1 he
            rw [hs0len] at hi
            rw [slice_getD _ _ _ _ hi] at hgi
            obtain ⟨tt, htt1, htt2, htt3⟩ := hplace.2 v hv (OFF.getD v 0 + i)
              (by omega) (by omega)
            rw [htt2] at hgi
            subst hgi
            exact ⟨htt1, htt3⟩

/-! The Voronoi diagram builder. -/

theorem NewDiagram_ok_facts (sites : List Vec3) (hull : List ℕ) (eps : ℚ) (d : Diagram)
    (h : NewDiagram sites hull eps = .ok d) :
    ∃ dt, NewTriangulation sites hull [WithEps (if eps = 0 then defaultEps else eps)] = .ok dt ∧
      d.Sites = dt.Vertices ∧
      d.CellVertices = dt.IncidentTriangleIndices ∧
      d.CellOffsets = dt.IncidentTriangleOffsets ∧
      d.CellNeighbors = (List.range dt.Vertices.length).foldl (fillCellNeighbors dt)
        (List.replicate dt.IncidentTriangleIndices.length 0) := by
  rw [NewDiagram] at h
  dsimp only at h
  cases htri : NewTriangulation sites hull [WithEps (if eps = 0 then defaultEps else eps)] with
  | error e => rw [htri] at h; simp at h
  | ok dt =>
    rw [htri] at h
    dsimp only at h
    simp at h
    exact ⟨dt, rfl, by rw [← h], by rw [← h], by rw [← h], by rw [← h]⟩

/-- Correctness of the neighbor-fill loop: the cell-neighbor entry at
position `offsets[v] + i` is `NextVertex` of site `v`'s `i`-th incident
triangle at `v`. -/
theorem cellNeighbors_spec (dt : Triangulation) (N : ℕ) (hull : List ℕ)
    (hspec : OffsetsSpec N hull dt.IncidentTriangleOffsets)
    (hN : dt.Vertices.length = N)
    (hilen : dt.IncidentTriangleIndices.length = hull.length) :
    ((List.range dt.Vertices.length).foldl (fillCellNeighbors dt)
      (List.replicate dt.IncidentTriangleIndices.length 0)).length =
        dt.IncidentTriangleIndices.length ∧
    ∀ v, v < N → ∀ i,
      i < dt.IncidentTriangleOffsets.getD (v + 1) 0 - dt.IncidentTriangleOffsets.getD v 0 →
      ((List.range dt.Vertices.length).foldl (fillCellNeighbors dt)
          (List.replicate dt.IncidentTriangleIndices.length 0)).getD
        (dt.IncidentTriangleOffsets.getD v 0 + i) 0 =
      (NextVertex (dt.Triangles.getD
        (dt.IncidentTriangleIndices.getD (dt.IncidentTriangleOffsets.getD v 0 + i) 0)
        default) v).getD 0 := by
  set OFF := dt.IncidentTriangleOffsets with hOFFdef
  have hOlen : OFF.length = N + 1 := hspec.1
  have hlast : OFF.getD N 0 = hull.length := hspec.last
  have hstep : ∀ k cn, k < N →
      (cn.length = dt.IncidentTriangleIndices.length ∧
        ∀ v, v < k → ∀ i, i < OFF.getD (v + 1) 0 - OFF.getD v 0 →
          cn.getD (OFF.getD v 0 + i) 0 =
          (NextVertex (dt.Triangles.getD
            (dt.IncidentTriangleIndices.getD (OFF.getD v 0 + i) 0) default) v).getD 0) →
      ((fillCellNeighbors dt cn k).length = dt.IncidentTriangleIndices.length ∧
        ∀ v, v < k + 1 → ∀ i, i < OFF.getD (v + 1) 0 - OFF.getD v 0 →
          (fillCellNeighbors dt cn k).getD (OFF.getD v 0 + i) 0 =
          (NextVertex (dt.Triangles.getD
            (dt.IncidentTriangleIndices.getD (OFF.getD v 0 + i) 0) default) v).getD 0) := by
    intro k cn hk hcn
    have hm1 : OFF.getD k 0 ≤ OFF.getD (k + 1) 0 := hspec.mono k (k + 1) (by omega) (by omega)
    have hm2 : OFF.getD (k + 1) 0 ≤ OFF.getD N 0 := hspec.mono (k + 1) N (by omega) le_rfl
    have hitlen : ((dt.IncidentTriangleIndices.drop (OFF.getD k 0)).take
        (OFF.getD (k + 1) 0 - OFF.getD k 0)).length =
        OFF.getD (k + 1) 0 - OFF.getD k 0 :=
      slice_length _ _ _ hm1 (by omega)
    have hinner := foldl_range_inv
      ((dt.IncidentTriangleIndices.drop (OFF.getD k 0)).take
        (OFF.getD (k + 1) 0 - OFF.getD k 0)).length
      (fun cn' i => cn'.set (OFF.getD k 0 + i)
        ((NextVertex (dt.Triangles.getD
          (((dt.IncidentTriangleIndices.drop (OFF.getD k 0)).take
            (OFF.getD (k + 1) 0 - OFF.getD k 0)).getD i 0) default) k).getD 0))
      cn
      (fun j cn' => cn'.length = cn.length ∧
        (∀ i, i < j → cn'.getD (OFF.getD k 0 + i) 0 =
          (NextVertex (dt.Triangles.getD
            (((dt.IncidentTriangleIndices.drop (OFF.getD k 0)).take
              (OFF.getD (k + 1) 0 - OFF.getD k 0)).getD i 0) default) k).getD 0) ∧
        (∀ p, p < OFF.getD k 0 ∨ OFF.getD (k + 1) 0 ≤ p → cn'.getD p 0 = cn.getD p 0))
      ⟨rfl, fun i hi => absurd hi (by omega), fun p _ => rfl⟩
      (by
        intro j cn' hj hinv
        obtain ⟨hl, hdone, hout⟩ := hinv
        rw [hitlen] at hj
        have hpos : OFF.getD k 0 + j < cn.length := by omega
        refine ⟨by rw [List.length_set]; exact hl, ?_, ?_⟩
        · intro i hi
          rcases Nat.lt_or_ge i j with hij | hij
          · rw [getD_set_ne _ _ _ _ _ (by omega)]
            exact hdone i hij
          · have : i = j := by omega
            subst this
            rw [getD_set_self _ _ _ _ (by rw [hl]; omega)]
        · intro p hp
          rw [getD_set_ne _ _ _ _ _ (by omega)]
          exact hout p hp)
    obtain ⟨hl, hdone, hout⟩ := hinner
    have hfl : fillCellNeighbors dt cn k = (List.range
        ((dt.IncidentTriangleIndices.drop (OFF.getD k 0)).take
          (OFF.getD (k + 1) 0 - OFF.getD k 0)).length).foldl
      (fun cn' i => cn'.set (OFF.getD k 0 + i)
        ((NextVertex (dt.Triangles.getD
          (((dt.IncidentTriangleIndices.drop (OFF.getD k 0)).take
            (OFF.getD (k + 1) 0 - OFF.getD k 0)).getD i 0) default) k).getD 0)) cn := rfl
    rw [hfl]
    refine ⟨by rw [hl]; exact hcn.1, ?_⟩
    intro v hv i hi
    rcases Nat.lt_or_ge v k with hvk | hvk
    · have hm3 : OFF.getD (v + 1) 0 ≤ OFF.getD k 0 := hspec.mono (v + 1) k (by omega) (by omega)
      rw [hout _ (Or.inl (by omega))]
      exact hcn.2 v hvk i hi
    · have hv' : v = k := by omega
      subst hv'
      rw [hdone i (by rw [hitlen]; omega), slice_getD _ _ _ _ hi]
  have main := foldl_range_inv N (fillCellNeighbors dt)
    (List.replicate dt.IncidentTriangleIndices.length 0)
    (fun k cn => cn.length = dt.IncidentTriangleIndices.length ∧
      ∀ v, v < k → ∀ i, i < OFF.getD (v + 1) 0 - OFF.getD v 0 →
        cn.getD (OFF.getD v 0 + i) 0 =
        (NextVertex (dt.Triangles.getD
          (dt.IncidentTriangleIndices.getD (OFF.getD v 0 + i) 0) default) v).getD 0)
    ⟨by simp, fun v hv => absurd hv (by omega)⟩
    (fun k cn hk hcn => hstep k cn hk hcn)
  rw [hN]
  exact ⟨main.1, main.2⟩

/-! Geometry support lemmas. -/

theorem Vec3.norm2_mul (a : Vec3) (c : ℚ) : (a.mul c).norm2 = c ^ 2 * a.norm2 := by
  unfold Vec3.mul Vec3.norm2
  ring

theorem Vec3.norm2_eq_zero_iff (a : Vec3) : a.norm2 = 0 ↔ a = ⟨0, 0, 0⟩ := by
  constructor
  · intro h
    unfold Vec3.norm2 at h
    obtain ⟨x, y, z⟩ := a
    have hx : x = 0 := by nlinarith [mul_self_nonneg x, mul_self_nonneg y, mul_self_nonneg z]
    have hy : y = 0 := by nlinarith [mul_self_nonneg x, mul_self_nonneg y, mul_self_nonneg z]
    have hz : z = 0 := by nlinarith [mul_self_nonneg x, mul_self_nonneg y, mul_self_nonneg z]
    simp [hx, hy, hz]
  · intro h
    simp [h, Vec3.norm2]

theorem Vec3.norm2_toR (a : Vec3) : a.toR.norm2 = (a.norm2 : ℝ) := by
  unfold Vec3.toR Vec3R.norm2 Vec3.norm2
  push_cast
  ring

theorem Vec3R.norm2_nonneg (a : Vec3R) : 0 ≤ a.norm2 := by
  unfold Vec3R.norm2
  nlinarith [mul_self_nonneg a.x, mul_self_nonneg a.y, mul_self_nonneg a.z]

theorem Vec3R.norm2_mulR (a : Vec3R) (c : ℝ) : (a.mul c).norm2 = c ^ 2 * a.norm2 := by
  unfold Vec3R.mul Vec3R.norm2
  ring

theorem Vec3R.norm_normalize (a : Vec3R) (h : a.norm2 ≠ 0) : a.normalize.norm = 1 := by
  unfold Vec3R.normalize
  rw [if_neg h]
  unfold Vec3R.norm
  rw [Vec3R.norm2_mulR]
  have h0 : 0 < a.norm2 := lt_of_le_of_ne (Vec3R.norm2_nonneg a) (Ne.symm h)
  have hkey : (1 / Real.sqrt a.norm2) ^ 2 * a.norm2 = 1 := by
    rw [div_pow, one_pow, Real.sq_sqrt (le_of_lt h0)]
    field_simp
  rw [hkey, Real.sqrt_one]

/-- The fused sign test of `triangleCircumcenter` keeps the squared norm of
the candidate cross product. -/
theorem triangleCircumcenter_norm2 (p1 p2 p3 : Vec3) :
    (triangleCircumcenter p1 p2 p3).norm2 = ((p1.sub p2).cross (p2.sub p3)).norm2 := by
  unfold triangleCircumcenter
  dsimp only
  split_ifs with h
  · rw [Vec3.norm2_mul]
    ring
  · rfl

/-- The normal of a triangle's plane has the same dot product with each of
the triangle's three vertices, so with the vertex sum it is three times
the dot product with the first vertex; in particular the sign test of
the orientation pass against the first vertex agrees with a test against
the vertex sum. -/
theorem cross_dot_sum_eq (p0 p1 p2 : Vec3) :
    ((p1.sub p0).cross (p2.sub p0)).dot ((p0.add p1).add p2) =
      3 * ((p1.sub p0).cross (p2.sub p0)).dot p0 := by
  unfold Vec3.sub Vec3.add Vec3.cross Vec3.dot
  dsimp only
  ring

theorem applySetters_withEps_pos (eps : ℚ) (o res : TriangulationOptions)
    (h : applySetters [WithEps eps] o = .ok res) : 0 < eps := by
  rw [applySetters] at h
  by_cases hle : eps ≤ 0
  · rw [WithEps, if_pos hle] at h
    simp at h
  · push_neg at hle
    exact hle

/-! The claims. -/

/-- C10 counterexample: on the degenerate triangle `(0, 0, 1)` (repeated
vertex), `0` is one of the triangle's vertices, yet
`PrevVertex(t, NextVertex(t, 0)) = 1 ≠ 0`: `NextVertex` and `PrevVertex`
are not mutually inverse as the claim states for every triangle. -/
theorem nextPrev_counterexample :
    (Tri.mk 0 0 1).has 0 ∧
    NextVertex ⟨0, 0, 1⟩ 0 = some 0 ∧
    PrevVertex ⟨0, 0, 1⟩ 0 = some 1 ∧ (1 : ℕ) ≠ 0 := by
  refine ⟨Or.inl rfl, by decide, by decide, by decide⟩

/-- C10 (amended): for every triangle with three pairwise distinct
vertices and every site index `v` among its vertices, `NextVertex` and
`PrevVertex` both succeed and are mutually inverse; for `v` not among
the vertices both return an error (the latter holds for every
triangle). -/
theorem nextPrev_inverse (t : Tri) (v : ℕ)
    (hab : t.a ≠ t.b) (hbc : t.b ≠ t.c) (hac : t.a ≠ t.c) :
    (t.has v → ∃ n p, NextVertex t v = some n ∧ PrevVertex t v = some p ∧
      PrevVertex t n = some v ∧ NextVertex t p = some v) ∧
    (¬t.has v → NextVertex t v = none ∧ PrevVertex t v = none) := by
  constructor
  · intro hhas
    rcases hhas with rfl | rfl | rfl
    · refine ⟨t.b, t.c, ?_, ?_, ?_, ?_⟩ <;>
        simp [NextVertex, PrevVertex, hab, hbc, hac, Ne.symm hab, Ne.symm hbc, Ne.symm hac]
    · refine ⟨t.c, t.a, ?_, ?_, ?_, ?_⟩ <;>
        simp [NextVertex, PrevVertex, hab, hbc, hac, Ne.symm hab, Ne.symm hbc, Ne.symm hac]
    · refine ⟨t.a, t.b, ?_, ?_, ?_, ?_⟩ <;>
        simp [NextVertex, PrevVertex, hab, hbc, hac, Ne.symm hab, Ne.symm hbc, Ne.symm hac]
  · intro hnot
    exact ⟨NextVertex_eq_none_of_not_has t v hnot, PrevVertex_eq_none_of_not_has t v hnot⟩

/-- C10 witness: the amended statement instantiated on the distinct
triangle `(0, 1, 2)` at `v = 0`. -/
theorem nextPrev_inverse_witness :
    ((Tri.mk 0 1 2).has 0 → ∃ n p, NextVertex ⟨0, 1, 2⟩ 0 = some n ∧
      PrevVertex ⟨0, 1, 2⟩ 0 = some p ∧
      PrevVertex ⟨0, 1, 2⟩ n = some 0 ∧ NextVertex ⟨0, 1, 2⟩ p = some 0) ∧
    (¬(Tri.mk 0 1 2).has 0 → NextVertex ⟨0, 1, 2⟩ 0 = none ∧
      PrevVertex ⟨0, 1, 2⟩ 0 = none) :=
  nextPrev_inverse ⟨0, 1, 2⟩ 0 (by decide) (by decide) (by decide)

/-- C5 (confirmed): the orientation pass tests the sign of the cross
product of two edge vectors against the first vertex direction, which
provably agrees with testing against the triangle's vertex-sum
direction (the dot product with the vertex sum is three times the dot
product with the first vertex); the last two vertices are swapped if
and only if that sign is negative. -/
theorem sortCCW_vertex_sum (t : Tri) (verts : List Vec3) :
    sortTriangleVerticesCCW t verts =
      if (((verts.getD t.b default).sub (verts.getD t.a default)).cross
            ((verts.getD t.c default).sub (verts.getD t.a default))).dot
          (((verts.getD t.a default).add (verts.getD t.b default)).add
            (verts.getD t.c default)) < 0
      then ⟨t.a, t.c, t.b⟩ else t := by
  show (if (((verts.getD t.b default).sub (verts.getD t.a default)).cross
      ((verts.getD t.c default).sub (verts.getD t.a default))).dot
      (verts.getD t.a default) < 0 then (⟨t.a, t.c, t.b⟩ : Tri) else t) = _
  have h3 := cross_dot_sum_eq (verts.getD t.a default) (verts.getD t.b default)
    (verts.getD t.c default)
  have hiff : ((((verts.getD t.b default).sub (verts.getD t.a default)).cross
      ((verts.getD t.c default).sub (verts.getD t.a default))).dot
      (verts.getD t.a default) < 0) ↔
      ((((verts.getD t.b default).sub (verts.getD t.a default)).cross
      ((verts.getD t.c default).sub (verts.getD t.a default))).dot
      (((verts.getD t.a default).add (verts.getD t.b default)).add
        (verts.getD t.c default)) < 0) := by
    rw [h3]
    constructor
    · intro h
      nlinarith
    · intro h
      nlinarith
  exact if_congr hiff rfl rfl

/-- C7 (confirmed): a tolerance `eps ≤ 0` passed through `WithEps` makes
construction fail with `InvalidTolerance` (for the diagram builder,
`eps < 0`, since `eps = 0` is the "not overridden" sentinel); with no
override the tolerance is the default `1e-12`, and the default equals
`1/10^12`. -/
theorem tolerance_validation (sites : List Vec3) (hull : List ℕ) (eps : ℚ) :
    (eps ≤ 0 → NewTriangulation sites hull [WithEps eps] = .error .invalidTolerance) ∧
    (eps < 0 → NewDiagram sites hull eps = .error .invalidTolerance) ∧
    NewTriangulation sites hull [] = NewTriangulation sites hull [WithEps defaultEps] ∧
    NewDiagram sites hull 0 = NewDiagram sites hull defaultEps ∧
    defaultEps = 1 / 1000000000000 := by
  have hpos : ¬defaultEps ≤ 0 := by norm_num [defaultEps]
  have htolNeg : ∀ e : ℚ, e ≤ 0 →
      NewTriangulation sites hull [WithEps e] = .error .invalidTolerance := by
    intro e he
    rw [NewTriangulation, applySetters, WithEps, if_pos he]
  refine ⟨htolNeg eps, ?_, ?_, ?_, rfl⟩
  · intro hneg
    rw [NewDiagram]
    dsimp only
    rw [if_neg (ne_of_lt hneg), htolNeg eps (le_of_lt hneg)]
  · simp only [NewTriangulation, applySetters, WithEps, if_neg hpos]
  · rw [NewDiagram, NewDiagram]
    dsimp only
    rw [if_pos rfl, if_neg (by norm_num [defaultEps])]

/-- C7 witness: at `eps = -1` both builders reject with
`InvalidTolerance` on the sample input. -/
theorem tolerance_validation_witness :
    NewTriangulation sampleVerts sampleHull [WithEps (-1)] = .error .invalidTolerance ∧
    NewDiagram sampleVerts sampleHull (-1) = .error .invalidTolerance :=
  ⟨(tolerance_validation sampleVerts sampleHull (-1)).1 (by norm_num),
   (tolerance_validation sampleVerts sampleHull (-1)).2.1 (by norm_num)⟩

/-- C8 (confirmed): with fewer than 4 sites (and option setters that
themselves succeed), triangulation construction fails with
`InsufficientInput`, and so does diagram construction for every
non-negative tolerance; no partial result is returned (the error carries
no triangulation). -/
theorem insufficient_input (verts : List Vec3) (hull : List ℕ)
    (setters : List (TriangulationOptions → Except Err TriangulationOptions)) (eps : ℚ)
    (hlen : verts.length < 4) :
    ((∃ opts, applySetters setters ⟨defaultEps⟩ = .ok opts) →
      NewTriangulation verts hull setters = .error .insufficientInput) ∧
    (0 ≤ eps → NewDiagram verts hull eps = .error .insufficientInput) := by
  constructor
  · rintro ⟨opts, hopts⟩
    rw [NewTriangulation, hopts]
    dsimp only
    rw [if_pos hlen]
  · intro heps
    have hpos : ¬(if eps = 0 then defaultEps else eps) ≤ 0 := by
      by_cases h0 : eps = 0
      · rw [if_pos h0]
        norm_num [defaultEps]
      · rw [if_neg h0]
        push_neg
        exact lt_of_le_of_ne heps (Ne.symm h0)
    have htri : NewTriangulation verts hull [WithEps (if eps = 0 then defaultEps else eps)] =
        .error .insufficientInput := by
      rw [NewTriangulation, applySetters, WithEps, if_neg hpos]
      dsimp only
      rw [applySetters]
      dsimp only
      rw [if_pos hlen]
    rw [NewDiagram]
    dsimp only
    rw [htri]

/-- C8 witness: three sites are rejected with `InsufficientInput` by both
builders. -/
theorem insufficient_input_witness :
    NewTriangulation [⟨1, 0, 0⟩, ⟨0, 1, 0⟩, ⟨0, 0, 1⟩] [] [] = .error .insufficientInput ∧
    NewDiagram [⟨1, 0, 0⟩, ⟨0, 1, 0⟩, ⟨0, 0, 1⟩] [] 0 = .error .insufficientInput :=
  ⟨(insufficient_input [⟨1, 0, 0⟩, ⟨0, 1, 0⟩, ⟨0, 0, 1⟩] [] [] 0 (by decide)).1
      ⟨⟨defaultEps⟩, rfl⟩,
   (insufficient_input [⟨1, 0, 0⟩, ⟨0, 1, 0⟩, ⟨0, 0, 1⟩] [] [] 0 (by decide)).2 le_rfl⟩

/-- C3 (confirmed): with at least 4 sites and valid options, a hull
output whose index count is not exactly `3 * 2 * (N - 2)` makes
construction fail with `InconsistentHullOutput`; and every successful
construction has exactly `2 * (N - 2)` triangles. -/
theorem triangle_count (verts : List Vec3) (hull : List ℕ)
    (setters : List (TriangulationOptions → Except Err TriangulationOptions)) :
    (∀ t, NewTriangulation verts hull setters = .ok t →
      t.Triangles.length = 2 * (verts.length - 2)) ∧
    (4 ≤ verts.length → (∃ opts, applySetters setters ⟨defaultEps⟩ = .ok opts) →
      hull.length ≠ 3 * (2 * (verts.length - 2)) →
      NewTriangulation verts hull setters = .error .inconsistentHullOutput) := by
  constructor
  · intro t h
    obtain ⟨_, _, _, _, htris, _, _, _⟩ := NewTriangulation_ok_facts verts hull setters t h
    rw [htris, List.length_map, List.length_range]
  · rintro hN ⟨opts, hopts⟩ hhl
    rw [NewTriangulation, hopts]
    dsimp only
    rw [if_neg (by omega)]
    simp only [buildFromHull]
    rw [if_pos (by omega)]

/-- C3 witness: the sample tetrahedron yields `2 * (4 - 2) = 4`
triangles, and an empty hull output for 4 sites is rejected with
`InconsistentHullOutput`. -/
theorem triangle_count_witness :
    sampleTri.Triangles.length = 2 * (sampleVerts.length - 2) ∧
    NewTriangulation sampleVerts [] [] = .error .inconsistentHullOutput :=
  ⟨(triangle_count sampleVerts sampleHull []).1 sampleTri (by with_unfolding_all decide),
   (triangle_count sampleVerts [] []).2 (by with_unfolding_all decide) ⟨⟨defaultEps⟩, rfl⟩
     (by with_unfolding_all decide)⟩

/-- C1 counterexample: the duplicated-triangle hull output (four copies of
triangle `(0,1,2)`) passes the cardinality check, construction succeeds,
and the slice of site `0` is `[0, 1, 2, 3]`, yet for its first
consecutive pair `NextVertex(Triangles[0], 0) = some 1` differs from
`PrevVertex(Triangles[1], 0) = some 2`: the cyclic-fan invariant fails
on a successfully constructed triangulation. -/
theorem fan_cyclic_order_counterexample :
    NewTriangulation dupVerts dupHull [] = .ok dupTri ∧
    dupTri.IncidentTriangles 0 = .ok [0, 1, 2, 3] ∧
    NextVertex (dupTri.Triangles.getD 0 default) 0 = some 1 ∧
    PrevVertex (dupTri.Triangles.getD 1 default) 0 = some 2 ∧
    some (1 : ℕ) ≠ some 2 := by
  refine ⟨by with_unfolding_all decide, by with_unfolding_all decide,
    by with_unfolding_all decide, by with_unfolding_all decide, by decide⟩

/-- C1 (amended): for every successfully constructed triangulation, every
site `v` and every consecutive pair `(k-1, k)` of its incidence slice,
either `NextVertex(Triangles[s_{k-1}], v) = PrevVertex(Triangles[s_k], v)`
(the claimed cyclic CCW fan order), or no entry from position `k` onward
matches the previous slot — which can happen for malformed hull output,
in which case the sort leaves the slot as is and construction still
succeeds. -/
theorem fan_cyclic_order (verts : List Vec3) (hull : List ℕ)
    (setters : List (TriangulationOptions → Except Err TriangulationOptions))
    (t : Triangulation) (h : NewTriangulation verts hull setters = .ok t)
    (v : ℕ) (hv : v < verts.length) (s : List ℕ) (hs : t.IncidentTriangles v = .ok s)
    (k : ℕ) (hk1 : 1 ≤ k) (hk2 : k < s.length) :
    NextVertex (t.Triangles.getD (s.getD (k - 1) 0) default) v =
      PrevVertex (t.Triangles.getD (s.getD k 0) default) v ∨
    ∀ c ∈ s.drop k, PrevVertex (t.Triangles.getD c default) v ≠
      NextVertex (t.Triangles.getD (s.getD (k - 1) 0) default) v := by
  obtain ⟨_, _, _, _, _, _, _, hsl⟩ := NewTriangulation_ok_facts verts hull setters t h
  obtain ⟨s0, s', hacc, hsort, _⟩ := hsl v hv
  rw [hacc] at hs
  injection hs with hs
  subst hs
  rcases sortIncident_pairs v s0 t.Triangles _ hsort k hk1 hk2 with h1 | h2
  · exact Or.inl h1.symm
  · exact Or.inr h2

/-- C1 witness: the amended statement on the sample tetrahedron at site
`0`, pair `(0, 1)` of its slice `[0, 1, 2]` (the matching disjunct
holds). -/
theorem fan_cyclic_order_witness :
    NextVertex (sampleTri.Triangles.getD (([0, 1, 2] : List ℕ).getD (1 - 1) 0) default) 0 =
      PrevVertex (sampleTri.Triangles.getD (([0, 1, 2] : List ℕ).getD 1 0) default) 0 ∨
    ∀ c ∈ ([0, 1, 2] : List ℕ).drop 1,
      PrevVertex (sampleTri.Triangles.getD c default) 0 ≠
      NextVertex (sampleTri.Triangles.getD (([0, 1, 2] : List ℕ).getD (1 - 1) 0) default) 0 :=
  fan_cyclic_order sampleVerts sampleHull [] sampleTri (by with_unfolding_all decide)
    0 (by with_unfolding_all decide) [0, 1, 2] (by with_unfolding_all decide)
    1 (by decide) (by decide)

/-- C9 counterexample: with the duplicated-triangle hull output, at the
sort position `i = 1` of site `0`'s slice no later entry `j ∈ {2, 3}`
has `PrevVertex(Triangles[j], 0)` equal to the previous slot's
`NextVertex(Triangles[0], 0) = some 1`, yet construction succeeds
instead of failing with `InconsistentHullOutput`: a no-match does not
make the sort fail. -/
theorem sort_no_match_counterexample :
    NewTriangulation dupVerts dupHull [] = .ok dupTri ∧
    dupTri.IncidentTriangles 0 = .ok [0, 1, 2, 3] ∧
    NextVertex (dupTri.Triangles.getD 0 default) 0 = some 1 ∧
    PrevVertex (dupTri.Triangles.getD 2 default) 0 ≠ some 1 ∧
    PrevVertex (dupTri.Triangles.getD 3 default) 0 ≠ some 1 := by
  refine ⟨by with_unfolding_all decide, by with_unfolding_all decide,
    by with_unfolding_all decide, by with_unfolding_all decide,
    by with_unfolding_all decide⟩

/-- C9 (amended): when no later entry matches at some position, the CCW
incidence sort leaves that slot in place and proceeds — it neither fails
nor loops; whenever every entry's triangle contains the site (as
established by the placement pass), the sort completes and returns a
permutation of the slice.  `InconsistentHullOutput` is raised only by
the cardinality validation. -/
theorem sort_no_match_proceeds (v : ℕ) (l : List ℕ) (tris : List Tri)
    (hall : ∀ c ∈ l, (tris.getD c default).has v) :
    ∃ r, sortIncidentTriangleIndicesCCW v l tris = some r ∧ r.Perm l := by
  obtain ⟨r, hr⟩ := sortIncident_isSome v l tris hall
  exact ⟨r, hr, sortIncident_perm v l tris r hr⟩

/-- C9 witness: the amended statement on the malformed duplicated-triangle
input, where the no-match case actually occurs and the sort still
returns a permutation. -/
theorem sort_no_match_proceeds_witness :
    ∃ r, sortIncidentTriangleIndicesCCW 0 [0, 1, 2, 3] dupTri.Triangles = some r ∧
      r.Perm [0, 1, 2, 3] :=
  sort_no_match_proceeds 0 [0, 1, 2, 3] dupTri.Triangles (by with_unfolding_all decide)

/-- C6 (confirmed): for every successfully constructed diagram,
`CellOffsets` is non-decreasing, starts at `0`, and its last entry
equals `len(CellVertices) = len(CellNeighbors) = 3 * numTriangles`. -/
theorem cell_offsets_csr (sites : List Vec3) (hull : List ℕ) (eps : ℚ)
    (d : Diagram) (dt : Triangulation)
    (hd : NewDiagram sites hull eps = .ok d)
    (ht : NewTriangulation sites hull [WithEps (if eps = 0 then defaultEps else eps)] = .ok dt) :
    (∀ i, i + 1 < d.CellOffsets.length →
      d.CellOffsets.getD i 0 ≤ d.CellOffsets.getD (i + 1) 0) ∧
    d.CellOffsets.getD 0 0 = 0 ∧
    d.CellOffsets.getD (d.CellOffsets.length - 1) 0 = d.CellVertices.length ∧
    d.CellVertices.length = d.CellNeighbors.length ∧
    d.CellVertices.length = 3 * dt.Triangles.length := by
  obtain ⟨dt', htri', hsites, hcv, hco, hcn⟩ := NewDiagram_ok_facts sites hull eps d hd
  rw [ht] at htri'
  injection htri' with hdt
  subst hdt
  obtain ⟨hopts, hN4, hhl, hverts, htris, hspec, hilen, hsl⟩ :=
    NewTriangulation_ok_facts sites hull _ dt ht
  have hOlen : dt.IncidentTriangleOffsets.length = sites.length + 1 := hspec.1
  have hlast : dt.IncidentTriangleOffsets.getD sites.length 0 = hull.length := hspec.last
  have hcnspec := cellNeighbors_spec dt sites.length hull hspec (by rw [hverts]) hilen
  have htlen : dt.Triangles.length = 2 * (sites.length - 2) := by
    rw [htris, List.length_map, List.length_range]
  refine ⟨?_, ?_, ?_, ?_, ?_⟩
  · intro i hi
    rw [hco] at hi ⊢
    exact hspec.mono i (i + 1) (by omega) (by omega)
  · rw [hco]
    exact hspec.2.1
  · rw [hco, hcv, hOlen]
    simpa [hilen] using hlast
  · rw [hcv, hcn, hcnspec.1, hilen]
  · rw [hcv, hilen, htlen]
    omega

/-- C6 witness: the CSR properties hold on the sample tetrahedron
diagram. -/
theorem cell_offsets_csr_witness :
    (∀ i, i + 1 < sampleDia.CellOffsets.length →
      sampleDia.CellOffsets.getD i 0 ≤ sampleDia.CellOffsets.getD (i + 1) 0) ∧
    sampleDia.CellOffsets.getD 0 0 = 0 ∧
    sampleDia.CellOffsets.getD (sampleDia.CellOffsets.length - 1) 0 =
      sampleDia.CellVertices.length ∧
    sampleDia.CellVertices.length = sampleDia.CellNeighbors.length ∧
    sampleDia.CellVertices.length = 3 * sampleTri.Triangles.length :=
  cell_offsets_csr sampleVerts sampleHull 0 sampleDia sampleTri
    (by with_unfolding_all decide) (by with_unfolding_all decide)

/-- C4 (confirmed): the diagram's cell-vertex array and offsets are the
triangulation's incidence arrays themselves (reused, not recomputed),
and for every site `v` and position `i` of its slice, the `i`-th
cell-neighbor entry is `NextVertex(Triangles[t], v)` for `t` the `i`-th
incident triangle of `v`. -/
theorem cell_vertices_neighbors (sites : List Vec3) (hull : List ℕ) (eps : ℚ)
    (d : Diagram) (dt : Triangulation)
    (hd : NewDiagram sites hull eps = .ok d)
    (ht : NewTriangulation sites hull [WithEps (if eps = 0 then defaultEps else eps)] = .ok dt) :
    d.CellVertices = dt.IncidentTriangleIndices ∧
    d.CellOffsets = dt.IncidentTriangleOffsets ∧
    ∀ v, v < sites.length → ∀ s, dt.IncidentTriangles v = .ok s →
      ∀ i, i < s.length →
        NextVertex (dt.Triangles.getD (s.getD i 0) default) v =
          some (d.CellNeighbors.getD (dt.IncidentTriangleOffsets.getD v 0 + i) 0) := by
  obtain ⟨dt', htri', hsites, hcv, hco, hcn⟩ := NewDiagram_ok_facts sites hull eps d hd
  rw [ht] at htri'
  injection htri' with hdt
  subst hdt
  obtain ⟨hopts, hN4, hhl, hverts, htris, hspec, hilen, hsl⟩ :=
    NewTriangulation_ok_facts sites hull _ dt ht
  have hOlen : dt.IncidentTriangleOffsets.length = sites.length + 1 := hspec.1
  have hlast : dt.IncidentTriangleOffsets.getD sites.length 0 = hull.length := hspec.last
  have hcnspec := cellNeighbors_spec dt sites.length hull hspec (by rw [hverts]) hilen
  refine ⟨hcv, hco, ?_⟩
  intro v hv s hs i hi
  have hm1 : dt.IncidentTriangleOffsets.getD v 0 ≤ dt.IncidentTriangleOffsets.getD (v + 1) 0 :=
    hspec.mono v (v + 1) (by omega) (by omega)
  have hm2 : dt.IncidentTriangleOffsets.getD (v + 1) 0 ≤
      dt.IncidentTriangleOffsets.getD sites.length 0 :=
    hspec.mono (v + 1) sites.length (by omega) le_rfl
  have hsval : s = (dt.IncidentTriangleIndices.drop (dt.IncidentTriangleOffsets.getD v 0)).take
      (dt.IncidentTriangleOffsets.getD (v + 1) 0 - dt.IncidentTriangleOffsets.getD v 0) := by
    rw [Triangulation.IncidentTriangles, if_neg (by rw [hOlen]; omega)] at hs
    injection hs with hs
    exact hs.symm
  have hslen : s.length = dt.IncidentTriangleOffsets.getD (v + 1) 0 -
      dt.IncidentTriangleOffsets.getD v 0 := by
    rw [hsval]
    exact slice_length _ _ _ hm1 (by omega)
  have hsget : s.getD i 0 = dt.IncidentTriangleIndices.getD
      (dt.IncidentTriangleOffsets.getD v 0 + i) 0 := by
    rw [hsval]
    exact slice_getD _ _ _ _ (by omega)
  obtain ⟨s0, s', hacc, hsort, hmem0⟩ := hsl v hv
  have hss' : s' = s := by
    rw [hacc] at hs
    injection hs
  rw [hss'] at hsort
  have hmem : s.getD i 0 ∈ s := getD_mem s i 0 hi
  have hmem' : s.getD i 0 ∈ s0 := ((sortIncident_perm v s0 _ s hsort).mem_iff).1 hmem
  obtain ⟨heT, hehas⟩ := hmem0 (s.getD i 0) hmem'
  have htri_e : dt.Triangles.getD (s.getD i 0) default =
      sortTriangleVerticesCCW (rawTriple hull (s.getD i 0)) sites := by
    rw [htris]
    exact getD_map_range _ _ _ _ heT
  have hhase : (dt.Triangles.getD (s.getD i 0) default).has v := by
    rw [htri_e, sortTriangleVerticesCCW_has]
    exact hehas
  have hsome : (NextVertex (dt.Triangles.getD (s.getD i 0) default) v).isSome :=
    (NextVertex_isSome_iff _ v).2 hhase
  obtain ⟨u, hu⟩ := Option.isSome_iff_exists.1 hsome
  have hcnval := hcnspec.2 v hv i (by omega)
  rw [← hsget, hu] at hcnval
  rw [hcn, hcnval, hu]
  rfl

/-- C4 witness: the sharing and neighbor lockstep on the sample
tetrahedron diagram at site `0`, slice `[0, 1, 2]`, position `0`. -/
theorem cell_vertices_neighbors_witness :
    sampleDia.CellVertices = sampleTri.IncidentTriangleIndices ∧
    sampleDia.CellOffsets = sampleTri.IncidentTriangleOffsets ∧
    ∀ v, v < sampleVerts.length → ∀ s, sampleTri.IncidentTriangles v = .ok s →
      ∀ i, i < s.length →
        NextVertex (sampleTri.Triangles.getD (s.getD i 0) default) v =
          some (sampleDia.CellNeighbors.getD
            (sampleTri.IncidentTriangleOffsets.getD v 0 + i) 0) :=
  cell_vertices_neighbors sampleVerts sampleHull 0 sampleDia sampleTri
    (by with_unfolding_all decide) (by with_unfolding_all decide)

/-- C2 counterexample: a cardinality-correct hull output containing the
degenerate triple `(0, 0, 1)` (repeated vertex) is accepted, and the
resulting Voronoi "vertex" is the zero vector — its norm `0` is not
within the configured epsilon of `1`.  The unit-norm claim fails on a
successfully constructed diagram. -/
theorem diagram_vertices_unit_counterexample :
    NewDiagram dupVerts degHull 0 = .ok degDia ∧
    NewTriangulation dupVerts degHull [WithEps defaultEps] = .ok degTri ∧
    Vec3R.norm (DiagramVertex degTri 0) = 0 ∧
    ¬(|Vec3R.norm (DiagramVertex degTri 0) - 1| ≤ ((defaultEps : ℚ) : ℝ)) := by
  have h1 : degTri.Triangles.getD 0 default = ⟨0, 0, 1⟩ := by with_unfolding_all decide
  have h2 : degTri.Vertices = dupVerts := by with_unfolding_all decide
  have h3 : triangleCircumcenter (dupVerts.getD 0 default) (dupVerts.getD 0 default)
      (dupVerts.getD 1 default) = ⟨0, 0, 0⟩ := by with_unfolding_all decide
  have hnorm : Vec3R.norm (DiagramVertex degTri 0) = 0 := by
    rw [DiagramVertex]
    rw [h1]
    dsimp only
    rw [h2, h3]
    have hz : (Vec3.toR ⟨0, 0, 0⟩).norm2 = 0 := by
      simp [Vec3.toR, Vec3R.norm2]
    rw [Vec3R.normalize, if_pos hz]
    rw [Vec3R.norm]
    simp [Vec3R.norm2]
  refine ⟨by with_unfolding_all decide, by with_unfolding_all decide, hnorm, ?_⟩
  rw [hnorm]
  rw [show |(0 : ℝ) - 1| = 1 by norm_num]
  rw [defaultEps]
  push_cast
  norm_num

/-- C2 (amended): for every successfully constructed diagram and every
triangle index `i`, the Voronoi vertex of triangle `i` is computed by
crossing the two edge vectors of the triangle's three sphere points,
flipping the sign when the dot product with the sum of the three site
vectors is negative, and normalising to unit length, stored at the same
index as the triangle; provided the candidate cross product is nonzero
(non-degenerate triangle), the vertex has exactly unit norm, hence unit
norm within the configured (positive) epsilon. -/
theorem diagram_vertices_unit (sites : List Vec3) (hull : List ℕ) (eps : ℚ)
    (d : Diagram) (dt : Triangulation)
    (hd : NewDiagram sites hull eps = .ok d)
    (ht : NewTriangulation sites hull [WithEps (if eps = 0 then defaultEps else eps)] = .ok dt)
    (i : ℕ) :
    DiagramVertex dt i = Vec3R.normalize (Vec3.toR
      (if (((sites.getD (dt.Triangles.getD i default).a default).sub
              (sites.getD (dt.Triangles.getD i default).b default)).cross
            ((sites.getD (dt.Triangles.getD i default).b default).sub
              (sites.getD (dt.Triangles.getD i default).c default))).dot
            (((sites.getD (dt.Triangles.getD i default).a default).add
              (sites.getD (dt.Triangles.getD i default).b default)).add
              (sites.getD (dt.Triangles.getD i default).c default)) < 0
       then (((sites.getD (dt.Triangles.getD i default).a default).sub
              (sites.getD (dt.Triangles.getD i default).b default)).cross
            ((sites.getD (dt.Triangles.getD i default).b default).sub
              (sites.getD (dt.Triangles.getD i default).c default))).mul (-1)
       else ((sites.getD (dt.Triangles.getD i default).a default).sub
              (sites.getD (dt.Triangles.getD i default).b default)).cross
            ((sites.getD (dt.Triangles.getD i default).b default).sub
              (sites.getD (dt.Triangles.getD i default).c default)))) ∧
    (((sites.getD (dt.Triangles.getD i default).a default).sub
        (sites.getD (dt.Triangles.getD i default).b default)).cross
      ((sites.getD (dt.Triangles.getD i default).b default).sub
        (sites.getD (dt.Triangles.getD i default).c default)) ≠ ⟨0, 0, 0⟩ →
      Vec3R.norm (DiagramVertex dt i) = 1 ∧
      |Vec3R.norm (DiagramVertex dt i) - 1| ≤ ((if eps = 0 then defaultEps else eps : ℚ) : ℝ)) := by
  obtain ⟨hopts, hN4, hhl, hverts, htris, hspec, hilen, hsl⟩ :=
    NewTriangulation_ok_facts sites hull _ dt ht
  obtain ⟨opts, happ⟩ := hopts
  have hepspos : 0 < (if eps = 0 then defaultEps else eps) :=
    applySetters_withEps_pos _ _ _ happ
  have hform : DiagramVertex dt i = Vec3R.normalize (Vec3.toR
      (triangleCircumcenter (sites.getD (dt.Triangles.getD i default).a default)
        (sites.getD (dt.Triangles.getD i default).b default)
        (sites.getD (dt.Triangles.getD i default).c default))) := by
    rw [DiagramVertex]
    rw [hverts]
  constructor
  · rw [hform, triangleCircumcenter]
  · intro hcc
    have hn2 : (triangleCircumcenter (sites.getD (dt.Triangles.getD i default).a default)
        (sites.getD (dt.Triangles.getD i default).b default)
        (sites.getD (dt.Triangles.getD i default).c default)).norm2 ≠ 0 := by
      rw [triangleCircumcenter_norm2]
      intro hz
      exact hcc ((Vec3.norm2_eq_zero_iff _).1 hz)
    have hn2R : (Vec3.toR (triangleCircumcenter
        (sites.getD (dt.Triangles.getD i default).a default)
        (sites.getD (dt.Triangles.getD i default).b default)
        (sites.getD (dt.Triangles.getD i default).c default))).norm2 ≠ 0 := by
      rw [Vec3.norm2_toR]
      exact_mod_cast hn2
    have hone : Vec3R.norm (DiagramVertex dt i) = 1 := by
      rw [hform]
      exact Vec3R.norm_normalize _ hn2R
    refine ⟨hone, ?_⟩
    rw [hone]
    simp only [sub_self, abs_zero]
    exact_mod_cast le_of_lt hepspos

/-- C2 witness: on the sample tetrahedron diagram, triangle `0` is
non-degenerate and its Voronoi vertex has exactly unit norm. -/
theorem diagram_vertices_unit_witness :
    ((sampleVerts.getD (sampleTri.Triangles.getD 0 default).a default).sub
        (sampleVerts.getD (sampleTri.Triangles.getD 0 default).b default)).cross
      ((sampleVerts.getD (sampleTri.Triangles.getD 0 default).b default).sub
        (sampleVerts.getD (sampleTri.Triangles.getD 0 default).c default)) ≠ ⟨0, 0, 0⟩ ∧
    Vec3R.norm (DiagramVertex sampleTri 0) = 1 :=
  ⟨by with_unfolding_all decide,
   ((diagram_vertices_unit sampleVerts sampleHull 0 sampleDia sampleTri
      (by with_unfolding_all decide) (by with_unfolding_all decide) 0).2
      (by with_unfolding_all decide)).1⟩

end S2D
